import Mathlib

/-!
# A verification development for the `sabre` ABR streaming simulator

This file gives a shallow embedding, over the rationals, of the parts of
`src/sabre.py` that the specification's claims are about:

* the playback-buffer depletion and seek handling
  (`deplete_buffer`, `interrupted_by_seek`, `process_quality_up`);
* the network model (`NetworkModel.do_latency_delay`, `do_download`,
  `do_minimal_latency_delay`, `do_minimal_download`, `delay`, `download`);
* the throughput-sample push guard of `process_download_loop`;
* the ABR helpers `Abr.quality_from_throughput`,
  `BolaEnh.get_quality_delay` (with `min_buffer_for_quality`,
  `max_buffer_for_quality`, `quality_from_buffer`) and
  `ThroughputRule.check_abandon`.

All times are milliseconds, sizes are bits, rates are bits/ms, exactly as in
the source; the source's IEEE-754 doubles are modelled as `ℚ`.  Loops of the
source whose termination depends on the trace data are embedded with an
explicit fuel parameter and return `Option`; `none` corresponds to a run that
needs more fuel.  Python `None` values are modelled with `Option`.
-/

namespace Sabre

/-- `ManifestInfo` namedtuple of the source.  The `utilities` field is data
(the source fills it with `ln bitrate + offset`; logarithms are transcendental
so the embedding carries the computed values as rationals). -/
structure ManifestInfo where
  segment_time : ℚ
  bitrates : List ℚ
  utilities : List ℚ
  segments : List (List ℚ)
deriving Repr, DecidableEq

/-- `NetworkPeriod` namedtuple of the source: `(time, bandwidth, latency)`. -/
structure NetworkPeriod where
  time : ℚ
  bandwidth : ℚ
  latency : ℚ
deriving Repr, DecidableEq

/-- `DownloadProgress` namedtuple of the source.  `time_to_first_bit` is an
`Option` because the source's local `latency` variable is `None` until the
first latency delay completes and can end up in the returned tuple. -/
structure DownloadProgress where
  index : ℤ
  quality : ℕ
  size : ℚ
  downloaded : ℚ
  time : ℚ
  time_to_first_bit : Option ℚ
  abandon_to_quality : Option ℕ
deriving Repr, DecidableEq

/-- A pending seek event (`seek_when`, `seek_to`, both in seconds). -/
structure SeekEvent where
  seek_when : ℚ
  seek_to : ℚ
deriving Repr, DecidableEq

/-- A `pending_quality_up` entry: `[advertised_at, quality]` optionally
extended with `completed_at`. -/
structure PendingQualityUp where
  advertised_at : ℚ
  quality : ℕ
  completed_at : Option ℚ
deriving Repr, DecidableEq

/-- The global session state (`gs` fields) read or written by
`deplete_buffer` / `interrupted_by_seek` / `process_quality_up`.
`abr_seeks` records the arguments of the `gs.abr.report_seek` callback
invocations; the logarithmic-oscillation metric
`total_log_bitrate_change` is omitted (it is transcendental and no claim
mentions it). -/
structure Sim where
  manifest : ManifestInfo
  buffer_contents : List (ℤ × ℕ)
  buffer_fcc : ℚ
  total_play_time : ℚ
  rebuffer_time : ℚ
  rebuffer_event_count : ℕ
  segment_rebuffer_time : ℚ
  seek_events : List SeekEvent
  next_segment : ℤ
  last_seek_time : ℚ
  played_utility : ℚ
  played_bitrate : ℚ
  total_bitrate_change : ℚ
  last_played : Option ℕ
  rampup_origin : ℚ
  rampup_time : Option ℚ
  rampup_threshold : Option ℕ
  sustainable_quality : ℕ
  pending_quality_up : List PendingQualityUp
  max_buffer_size : ℚ
  total_reaction_time : ℚ
  abr_seeks : List ℚ
deriving Repr, DecidableEq

/-- `get_buffer_level()`: `segment_time * len(buffer_contents) - buffer_fcc`. -/
def getBufferLevel (s : Sim) : ℚ :=
  s.manifest.segment_time * s.buffer_contents.length - s.buffer_fcc

/-- The segment index chosen by the seek handling of `interrupted_by_seek`:
floor of `seek_to·1000 / segment_time`, bumped by one when the offset into the
segment is at least half a segment. -/
def seekNewSegment (m : ManifestInfo) (seek_to : ℚ) : ℤ :=
  let seek_to_ms := seek_to * 1000
  let floor_idx : ℤ := ⌊seek_to_ms / m.segment_time⌋
  if seek_to_ms - floor_idx * m.segment_time < m.segment_time / 2 then floor_idx
  else floor_idx + 1

/-- The seek-processing body of `interrupted_by_seek` (the branch taken when
the head seek event falls inside the depletion interval): set the play clock
to the seek instant, align the buffer to the new segment, set `buffer_fcc`,
notify the ABR and reset the rampup origin. -/
def applySeek (e : SeekEvent) (rest : List SeekEvent) (s : Sim) : Sim :=
  let tpt := e.seek_when * 1000
  let seek_to_ms := e.seek_to * 1000
  let seg_time := s.manifest.segment_time
  let floor_idx : ℤ := ⌊seek_to_ms / seg_time⌋
  let new_segment : ℤ := seekNewSegment s.manifest e.seek_to
  let buffer_base : ℤ := s.next_segment - s.buffer_contents.length
  let keep : Bool :=
    s.buffer_contents ≠ [] ∧ buffer_base ≤ new_segment ∧ new_segment < s.next_segment
  let buffer' :=
    if keep then s.buffer_contents.drop (new_segment - buffer_base).toNat else []
  let next' := if keep then s.next_segment else new_segment
  let fcc' := if new_segment = floor_idx then seek_to_ms - floor_idx * seg_time else 0
  { s with
    total_play_time := tpt
    seek_events := rest
    last_seek_time := tpt
    buffer_contents := buffer'
    next_segment := next'
    buffer_fcc := fcc'
    abr_seeks := s.abr_seeks ++ [seek_to_ms]
    rampup_origin := tpt
    rampup_time := none }

/-- `interrupted_by_seek(delta)`.  Returns `(true, s')` when a pending seek
fell inside the interval and was processed, `(false, s')` (with
`total_play_time` advanced by `delta`) otherwise.  The sustainable-quality
advertisement does not run here in the source; the `gs.abr.report_seek`
callback is recorded in `abr_seeks`. -/
def interruptedBySeek (delta : ℚ) (s : Sim) : Bool × Sim :=
  match s.seek_events with
  | [] => (false, { s with total_play_time := s.total_play_time + delta })
  | e :: rest =>
    let seek_when_ms := e.seek_when * 1000
    if s.total_play_time < seek_when_ms ∧ seek_when_ms ≤ s.total_play_time + delta then
      (true, applySeek e rest s)
    else
      (false, { s with total_play_time := s.total_play_time + delta })

/-- The `while` loop of `process_quality_up(now)`: pop pending entries
advertised before the cutoff, accumulating reaction time. -/
def processQualityUpLoop (cutoff maxbuf : ℚ) :
    List PendingQualityUp → ℚ → List PendingQualityUp × ℚ
  | [], acc => ([], acc)
  | p :: rest, acc =>
    if p.advertised_at < cutoff then
      let reaction :=
        match p.completed_at with
        | none => maxbuf
        | some c => min maxbuf (c - p.advertised_at)
      processQualityUpLoop cutoff maxbuf rest (acc + reaction)
    else (p :: rest, acc)

/-- `process_quality_up(now)`. -/
def processQualityUp (now : ℚ) (s : Sim) : Sim :=
  let r := processQualityUpLoop (now - s.max_buffer_size) s.max_buffer_size
    s.pending_quality_up s.total_reaction_time
  { s with pending_quality_up := r.1, total_reaction_time := r.2 }

/-- Mark pending quality-up entries whose target is at most `quality` as
completed at `now` (the `for p in gs.pending_quality_up` loop of
`deplete_buffer`). -/
def markQualityUp (quality : ℕ) (now : ℚ) (l : List PendingQualityUp) :
    List PendingQualityUp :=
  l.map fun p =>
    if p.completed_at = none ∧ quality ≥ p.quality then
      { p with completed_at := some now }
    else p

/-- Per-head-segment metric accounting of `deplete_buffer`'s main loop
(utility, bitrate, bitrate-change, rampup, pending-quality-up marking). -/
def depleteMetrics (quality : ℕ) (s : Sim) : Sim :=
  let s :=
    { s with
      played_utility := s.played_utility + s.manifest.utilities.getD quality 0
      played_bitrate := s.played_bitrate + s.manifest.bitrates.getD quality 0 }
  let s :=
    match s.last_played with
    | some lp =>
      if quality ≠ lp then
        { s with
          total_bitrate_change := s.total_bitrate_change +
            |s.manifest.bitrates.getD quality 0 - s.manifest.bitrates.getD lp 0| }
      else s
    | none => s
  let s := { s with last_played := some quality }
  let s :=
    match s.rampup_time with
    | none =>
      let rt := match s.rampup_threshold with
        | none => s.sustainable_quality
        | some t => t
      if quality ≥ rt then
        { s with rampup_time := some (s.total_play_time - s.rampup_origin) }
      else s
    | some _ => s
  { s with pending_quality_up := markQualityUp quality s.total_play_time s.pending_quality_up }

/-- The `while time > 0 and len(buffer_contents) > 0` loop of
`deplete_buffer`, followed by the trailing-rebuffer branch and
`process_quality_up`.  The fuel bounds the number of popped head entries;
the caller supplies `buffer_contents.length + 1`, which always suffices. -/
def depleteLoop : ℕ → ℚ → Sim → Option (Bool × Sim)
  | 0, _, _ => none
  | fuel + 1, time, s =>
    if 0 < time ∧ s.buffer_contents ≠ [] then
      let quality := (s.buffer_contents.headD (0, 0)).2
      let s := depleteMetrics quality s
      if s.manifest.segment_time ≤ time then
        let s := { s with buffer_contents := s.buffer_contents.tail }
        match interruptedBySeek s.manifest.segment_time s with
        | (true, s') => some (false, s')
        | (false, s') => depleteLoop fuel (time - s.manifest.segment_time) s'
      else
        let s := { s with buffer_fcc := time }
        match interruptedBySeek time s with
        | (true, s') => some (false, s')
        | (false, s') => depleteLoop fuel 0 s'
    else
      if 0 < time then
        let s := { s with rebuffer_time := s.rebuffer_time + time }
        match interruptedBySeek time s with
        | (true, s') => some (false, s')
        | (false, s') =>
          some (true, processQualityUp s'.total_play_time
            { s' with
              rebuffer_event_count := s'.rebuffer_event_count + 1
              segment_rebuffer_time := time })
      else some (true, processQualityUp s.total_play_time s)

/-- `deplete_buffer(time)`: returns `(true, s')` on normal completion and
`(false, s')` when a seek interrupted the depletion. -/
def depleteBuffer (time : ℚ) (s : Sim) : Option (Bool × Sim) :=
  if s.buffer_contents = [] then
    match interruptedBySeek time { s with rebuffer_time := s.rebuffer_time + time } with
    | (true, s') => some (false, s')
    | (false, s') =>
      some (true,
        { s' with
          rebuffer_event_count := s'.rebuffer_event_count + 1
          segment_rebuffer_time := time })
  else
    if 0 < s.buffer_fcc then
      if time + s.buffer_fcc < s.manifest.segment_time then
        match interruptedBySeek time { s with buffer_fcc := s.buffer_fcc + time } with
        | (true, s') => some (false, s')
        | (false, s') => some (true, s')
      else
        match interruptedBySeek (s.manifest.segment_time - s.buffer_fcc) s with
        | (true, s') => some (false, s')
        | (false, s') =>
          depleteLoop (s'.buffer_contents.length + 1)
            (time - (s.manifest.segment_time - s.buffer_fcc))
            { s' with buffer_contents := s'.buffer_contents.tail, buffer_fcc := 0 }
    else
      depleteLoop (s.buffer_contents.length + 1) time s

/-- The mutable state of `NetworkModel` together with the session's
`network_total_time`.  The sustainable-quality advertisement performed by
`next_network_period` mutates only `gs.sustainable_quality` /
`gs.pending_quality_up` (neither clock) and is not needed by any claim, so it
is not threaded here. -/
structure NetState where
  trace : List NetworkPeriod
  index : ℕ
  time_to_next : ℚ
  network_total_time : ℚ
deriving Repr, DecidableEq

/-- The current `NetworkPeriod` (`self.trace[self.index]`). -/
def NetState.period (s : NetState) : NetworkPeriod :=
  s.trace.getD s.index ⟨0, 0, 0⟩

/-- `next_network_period()`: advance the trace cursor (wrapping) and reset
`time_to_next` to the new period's duration. -/
def nextNetworkPeriod (s : NetState) : NetState :=
  let i := s.index + 1
  let i := if i = s.trace.length then 0 else i
  { s with index := i, time_to_next := (s.trace.getD i ⟨0, 0, 0⟩).time }

/-- `do_latency_delay(delay_units)`: returns the total delay charged and the
new network state. -/
def doLatencyDelay : ℕ → ℚ → NetState → Option (ℚ × NetState)
  | 0, _, _ => none
  | fuel + 1, delay_units, s =>
    if 0 < delay_units then
      let current_latency := s.period.latency
      let time := delay_units * current_latency
      if time ≤ s.time_to_next then
        some (time,
          { s with
            network_total_time := s.network_total_time + time
            time_to_next := s.time_to_next - time })
      else
        match doLatencyDelay fuel (delay_units - s.time_to_next / current_latency)
          (nextNetworkPeriod
            { s with network_total_time := s.network_total_time + s.time_to_next }) with
        | none => none
        | some (d, s') => some (s.time_to_next + d, s')
    else some (0, s)

/-- `do_download(size)`: returns the total download time and the new state. -/
def doDownload : ℕ → ℚ → NetState → Option (ℚ × NetState)
  | 0, _, _ => none
  | fuel + 1, size, s =>
    if 0 < size then
      let current_bandwidth := s.period.bandwidth
      if size ≤ s.time_to_next * current_bandwidth then
        let time := size / current_bandwidth
        some (time,
          { s with
            network_total_time := s.network_total_time + time
            time_to_next := s.time_to_next - time })
      else
        match doDownload fuel (size - s.time_to_next * current_bandwidth)
          (nextNetworkPeriod
            { s with network_total_time := s.network_total_time + s.time_to_next }) with
        | none => none
        | some (t, s') => some (s.time_to_next + t, s')
    else some (0, s)

/-- `do_minimal_latency_delay(delay_units, min_time)`: returns
`(total_delay_units, total_delay_time)` and the new state. -/
def doMinimalLatencyDelay : ℕ → ℚ → ℚ → NetState → Option ((ℚ × ℚ) × NetState)
  | 0, _, _, _ => none
  | fuel + 1, delay_units, min_time, s =>
    if 0 < delay_units ∧ 0 < min_time then
      let current_latency := s.period.latency
      let time := delay_units * current_latency
      if time ≤ min_time ∧ time ≤ s.time_to_next then
        let units := delay_units
        let s' :=
          { s with
            time_to_next := s.time_to_next - time
            network_total_time := s.network_total_time + time }
        match doMinimalLatencyDelay fuel (delay_units - units) (min_time - time) s' with
        | none => none
        | some ((u, t), s'') => some ((units + u, time + t), s'')
      else if min_time ≤ s.time_to_next then
        let time := min_time
        let units := time / current_latency
        let s' :=
          { s with
            time_to_next := s.time_to_next - time
            network_total_time := s.network_total_time + time }
        match doMinimalLatencyDelay fuel (delay_units - units) (min_time - time) s' with
        | none => none
        | some ((u, t), s'') => some ((units + u, time + t), s'')
      else
        let time := s.time_to_next
        let units := time / current_latency
        let s' := nextNetworkPeriod
          { s with network_total_time := s.network_total_time + time }
        match doMinimalLatencyDelay fuel (delay_units - units) (min_time - time) s' with
        | none => none
        | some ((u, t), s'') => some ((units + u, time + t), s'')
    else some ((0, 0), s)

/-- `do_minimal_download(size, min_size, min_time)`: returns
`(total_size, total_time)` and the new state.  In the branch that reaches the
minimum-progress threshold inside the current period the source zeroes
`min_size`/`min_time` before the common decrement to stop the loop. -/
def doMinimalDownload : ℕ → ℚ → ℚ → ℚ → NetState → Option ((ℚ × ℚ) × NetState)
  | 0, _, _, _, _ => none
  | fuel + 1, size, min_size, min_time, s =>
    if 0 < size ∧ (0 < min_size ∨ 0 < min_time) then
      let current_bandwidth := s.period.bandwidth
      if 0 < current_bandwidth then
        let min_bits := max min_size (min_time * current_bandwidth)
        let bits_to_next := s.time_to_next * current_bandwidth
        if size ≤ min_bits ∧ size ≤ bits_to_next then
          let bits := size
          let time := bits / current_bandwidth
          let s' :=
            { s with
              time_to_next := s.time_to_next - time
              network_total_time := s.network_total_time + time }
          match doMinimalDownload fuel (size - bits) (min_size - bits) (min_time - time) s' with
          | none => none
          | some ((b, t), s'') => some ((bits + b, time + t), s'')
        else if min_bits ≤ bits_to_next then
          let bits := min_bits
          let time := bits / current_bandwidth
          let s' :=
            { s with
              time_to_next := s.time_to_next - time
              network_total_time := s.network_total_time + time }
          -- source sets min_size = 0 and min_time = 0 before the common decrement
          match doMinimalDownload fuel (size - bits) (0 - bits) (0 - time) s' with
          | none => none
          | some ((b, t), s'') => some ((bits + b, time + t), s'')
        else
          let bits := bits_to_next
          let time := s.time_to_next
          let s' := nextNetworkPeriod
            { s with network_total_time := s.network_total_time + time }
          match doMinimalDownload fuel (size - bits) (min_size - bits) (min_time - time) s' with
          | none => none
          | some ((b, t), s'') => some ((bits + b, time + t), s'')
      else
        if 0 < min_size ∨ s.time_to_next < min_time then
          let time := s.time_to_next
          let s' := nextNetworkPeriod
            { s with network_total_time := s.network_total_time + time }
          match doMinimalDownload fuel size min_size (min_time - time) s' with
          | none => none
          | some ((b, t), s'') => some ((b, time + t), s'')
        else
          let time := min_time
          let s' :=
            { s with
              time_to_next := s.time_to_next - time
              network_total_time := s.network_total_time + time }
          match doMinimalDownload fuel size min_size (min_time - time) s' with
          | none => none
          | some ((b, t), s'') => some ((b, time + t), s'')
    else some ((0, 0), s)

/-- `NetworkModel.delay(time)`. -/
def netDelay : ℕ → ℚ → NetState → Option NetState
  | 0, _, _ => none
  | fuel + 1, time, s =>
    if s.time_to_next < time then
      netDelay fuel (time - s.time_to_next)
        (nextNetworkPeriod
          { s with network_total_time := s.network_total_time + s.time_to_next })
    else
      some
        { s with
          time_to_next := s.time_to_next - time
          network_total_time := s.network_total_time + time }

/-- The class attributes `NetworkModel.min_progress_size` (= 12000 bits) and
`min_progress_time` (= 50 ms); carried as a parameter since the source marks
them as configurable. -/
structure NetworkConfig where
  min_progress_size : ℚ
  min_progress_time : ℚ
deriving Repr, DecidableEq

/-- The source's hard-coded configuration. -/
def defaultNetworkConfig : NetworkConfig := ⟨12000, 50⟩

/-- The `if delay_units > 0:` block at the top of `download`'s progress loop
(runs `do_minimal_latency_delay` and records the time-to-first-bit once the
latency units are exhausted).  Returns the updated
`(total_download_time, delay_units, min_time_to_progress, latency)` and state. -/
def downloadStepDelay (fuel : ℕ) (total_time delay_units min_ttp : ℚ)
    (latency : Option ℚ) (net : NetState) :
    Option (ℚ × ℚ × ℚ × Option ℚ × NetState) :=
  if 0 < delay_units then
    match doMinimalLatencyDelay fuel delay_units min_ttp net with
    | none => none
    | some ((units, time), net') =>
      let total_time' := total_time + time
      let delay_units' := delay_units - units
      let latency' := if delay_units' ≤ 0 then some total_time' else latency
      some (total_time', delay_units', min_ttp - time, latency', net')
  else some (total_time, delay_units, min_ttp, latency, net)

/-- The `if delay_units <= 0:` block of `download`'s progress loop (runs
`do_minimal_download`).  Returns the updated
`(total_download_time, total_download_size)` and state. -/
def downloadStepData (fuel : ℕ) (size total_time total_size delay_units min_ttp min_stp : ℚ)
    (net : NetState) : Option (ℚ × ℚ × NetState) :=
  if delay_units ≤ 0 then
    match doMinimalDownload fuel (size - total_size) min_stp min_ttp net with
    | none => none
    | some ((bits, time), net') => some (total_time + time, total_size + bits, net')
  else some (total_time, total_size, net)

/-- The `while total_download_size < size and abandon_quality == None` loop of
`NetworkModel.download`.  The third component of the result records every
`(progress, max(0, buffer_level - total_download_time))` argument pair passed
to the `check_abandon` callback, in order. -/
def downloadLoop (f : DownloadProgress → ℚ → Option ℕ) (cfg : NetworkConfig)
    (size : ℚ) (idx : ℤ) (quality : ℕ) (buffer_level : ℚ) :
    ℕ → ℚ → ℚ → ℚ → ℚ → ℚ → Option ℚ → NetState → List (DownloadProgress × ℚ) →
    Option (DownloadProgress × NetState × List (DownloadProgress × ℚ))
  | 0, _, _, _, _, _, _, _, _ => none
  | fuel + 1, total_time, total_size, delay_units, min_ttp, min_stp, latency, net, log =>
    if total_size < size then
      match downloadStepDelay (fuel + 1) total_time delay_units min_ttp latency net with
      | none => none
      | some (t1, du1, mtp1, lat1, net1) =>
        match downloadStepData (fuel + 1) size t1 total_size du1 mtp1 min_stp net1 with
        | none => none
        | some (t2, sz2, net2) =>
          let dp : DownloadProgress :=
            ⟨idx, quality, size, sz2, t2, lat1, none⟩
          if sz2 < size then
            let bl := max 0 (buffer_level - t2)
            let log' := log ++ [(dp, bl)]
            match f dp bl with
            | some q =>
              some (⟨idx, quality, size, sz2, t2, lat1, some q⟩, net2, log')
            | none =>
              downloadLoop f cfg size idx quality buffer_level fuel
                t2 sz2 du1 cfg.min_progress_time cfg.min_progress_size lat1 net2 log'
          else
            some (⟨idx, quality, size, sz2, t2, lat1, none⟩, net2, log)
    else
      some (⟨idx, quality, size, total_size, total_time, latency, none⟩, net, log)

/-- `NetworkModel.download(size, idx, quality, buffer_level, check_abandon)`.
The result carries the final `DownloadProgress`, the new network state and the
log of `check_abandon` invocations. -/
def download (fuel : ℕ) (cfg : NetworkConfig)
    (check_abandon : Option (DownloadProgress → ℚ → Option ℕ))
    (size : ℚ) (idx : ℤ) (quality : ℕ) (buffer_level : ℚ) (net : NetState) :
    Option (DownloadProgress × NetState × List (DownloadProgress × ℚ)) :=
  if size ≤ 0 then
    some (⟨idx, quality, 0, 0, 0, some 0, none⟩, net, [])
  else
    let simple : Option (DownloadProgress × NetState × List (DownloadProgress × ℚ)) :=
      match doLatencyDelay fuel 1 net with
      | none => none
      | some (latency, net') =>
        match doDownload fuel size net' with
        | none => none
        | some (t, net'') =>
          some (⟨idx, quality, size, size, latency + t, some latency, none⟩, net'', [])
    match check_abandon with
    | none => simple
    | some f =>
      if cfg.min_progress_time ≤ 0 ∧ cfg.min_progress_size ≤ 0 then simple
      else
        if 0 < cfg.min_progress_size then
          match doLatencyDelay fuel 1 net with
          | none => none
          | some (latency, net') =>
            downloadLoop f cfg size idx quality buffer_level fuel
              latency 0 0 (cfg.min_progress_time - latency) cfg.min_progress_size
              (some latency) net' []
        else
          downloadLoop f cfg size idx quality buffer_level fuel
            0 0 1 cfg.min_progress_time cfg.min_progress_size none net []

/-- The throughput-sample step at the end of `process_download_loop`
(lines 521-535 of the source): compute `t = downloaded / (time - ttfb)`,
`l = ttfb` and push them into the throughput history only when the download
was not abandoned.  The history is abstract; `push hist dl_time t l` is the
`gs.throughput_history.push` call. -/
def throughputSampleStep {H : Type} (push : H → ℚ → ℚ → ℚ → H)
    (dp : DownloadProgress) (hist : H) : H :=
  let download_time := dp.time - (dp.time_to_first_bit.getD 0)
  let t := dp.downloaded / download_time
  let l := dp.time_to_first_bit.getD 0
  match dp.abandon_to_quality with
  | none => push hist download_time t l
  | some _ => hist

/-- The `while` loop of `Abr.quality_from_throughput`: starting from `q`,
keep incrementing while `quality + 1 < len(bitrates)` and
`latency + p * bitrates[quality+1] / tput <= p`. -/
def qftGo (m : ManifestInfo) (latency tput : ℚ) : ℕ → ℕ → ℕ
  | 0, q => q
  | fuel + 1, q =>
    if q + 1 < m.bitrates.length ∧
        latency + m.segment_time * m.bitrates.getD (q + 1) 0 / tput ≤ m.segment_time then
      qftGo m latency tput fuel (q + 1)
    else q

/-- `Abr.quality_from_throughput(tput)` (reads `gs.latency` and
`gs.manifest`).  `bitrates.length` fuel always suffices since the loop
counter stays below `bitrates.length`. -/
def qualityFromThroughput (m : ManifestInfo) (latency tput : ℚ) : ℕ :=
  qftGo m latency tput m.bitrates.length 0

/-- The two-state machine of `BolaEnh`. -/
inductive BolaPhase
  | startup
  | steady
deriving Repr, DecidableEq

/-- Constructor-time parameters of `BolaEnh`: the shifted utilities
(`ln bitrate + offset`, so `utilities[0] = 1`; carried as data, see
`ManifestInfo`), the Lyapunov parameters `Vp`/`gp`, and the two flags. -/
structure BolaEnhParams where
  utilities : List ℚ
  Vp : ℚ
  gp : ℚ
  abr_osc : Bool
  no_ibr : Bool
deriving Repr, DecidableEq

/-- The mutable fields of a `BolaEnh` instance. -/
structure BolaEnhState where
  phase : BolaPhase
  placeholder : ℚ
  last_quality : ℕ
  ibr_safety : ℚ
deriving Repr, DecidableEq

/-- The session context read by `BolaEnh.get_quality_delay`:
`gs.throughput` (`none` when still unknown), `gs.latency`, and the current
buffer level.  In the STEADY branch the source reads `gs.throughput`
unconditionally (it is always set by then); the embedding uses `getD 0`. -/
structure BolaCtx where
  manifest : ManifestInfo
  throughput : Option ℚ
  latency : ℚ
  buffer_level : ℚ
deriving Repr, DecidableEq

/-- `BolaEnh.quality_from_buffer(level)`: the argmax over quality levels of
`(Vp * (utilities[q] + gp) - level) / bitrates[q]`, first maximiser wins. -/
def qualityFromBuffer (m : ManifestInfo) (p : BolaEnhParams) (level : ℚ) : ℕ :=
  ((List.range m.bitrates.length).foldl
    (fun acc q =>
      let s := (p.Vp * (p.utilities.getD q 0 + p.gp) - level) / m.bitrates.getD q 0
      match acc with
      | none => some (q, s)
      | some (bq, bs) => if bs < s then some (q, s) else some (bq, bs))
    none).elim 0 Prod.fst

/-- `BolaEnh.min_buffer_for_quality(quality)`. -/
def minBufferForQuality (m : ManifestInfo) (p : BolaEnhParams) (quality : ℕ) : ℚ :=
  let bitrate := m.bitrates.getD quality 0
  let utility := p.utilities.getD quality 0
  (List.range quality).foldl
    (fun level q =>
      if p.utilities.getD q 0 < utility then
        let b := m.bitrates.getD q 0
        let u := p.utilities.getD q 0
        max level (p.Vp * (p.gp + (bitrate * u - b * utility) / (bitrate - b)))
      else level)
    0

/-- `BolaEnh.max_buffer_for_quality(quality)`. -/
def maxBufferForQuality (p : BolaEnhParams) (quality : ℕ) : ℚ :=
  p.Vp * (p.utilities.getD quality 0 + p.gp)

/-- `BolaEnh.low_buffer_safety_factor` and `..._init`. -/
def lowBufferSafetyFactor : ℚ := 1 / 2

/-- `BolaEnh.low_buffer_safety_factor_init` (= 0.9). -/
def lowBufferSafetyFactorInit : ℚ := 9 / 10

/-- The insufficient-buffer-rule `for` loop of `BolaEnh.get_quality_delay`:
the first `q < quality` with `bitrates[q+1] * segment_time > safe_size`. -/
def ibrDownshift (m : ManifestInfo) (quality : ℕ) (safe_size : ℚ) : Option ℕ :=
  (List.range quality).find? fun q =>
    safe_size < m.bitrates.getD (q + 1) 0 * m.segment_time

/-- `BolaEnh.get_quality_delay(segment_index)`: returns `((quality, delay),
new state)`.  The source's dead `if quality > 0` block (it computes locals
feeding only a commented-out assignment) is omitted. -/
def bolaEnhGetQualityDelay (p : BolaEnhParams) (ctx : BolaCtx)
    (st : BolaEnhState) : (ℕ × ℚ) × BolaEnhState :=
  let buffer_level := ctx.buffer_level
  match st.phase with
  | BolaPhase.startup =>
    match ctx.throughput with
    | none => ((st.last_quality, 0), st)
    | some tput =>
      let quality := qualityFromThroughput ctx.manifest ctx.latency tput
      let placeholder := minBufferForQuality ctx.manifest p quality - buffer_level
      let placeholder := max 0 placeholder
      ((quality, 0),
        { st with
          phase := BolaPhase.steady
          ibr_safety := lowBufferSafetyFactorInit
          placeholder := placeholder })
  | BolaPhase.steady =>
    let tput := ctx.throughput.getD 0
    let quality := qualityFromBuffer ctx.manifest p (buffer_level + st.placeholder)
    let quality_t := qualityFromThroughput ctx.manifest ctx.latency tput
    let quality :=
      if st.last_quality < quality ∧ quality_t < quality then
        let q := max st.last_quality quality_t
        if p.abr_osc then q else q + 1
      else quality
    let max_level := maxBufferForQuality p quality
    let delay := buffer_level + st.placeholder - max_level
    let (delay, placeholder) :=
      if 0 < delay then
        if delay ≤ st.placeholder then (0, st.placeholder - delay)
        else (delay - st.placeholder, 0)
      else (0, st.placeholder)
    let delay := if (quality : ℤ) = (ctx.manifest.bitrates.length : ℤ) - 1 then 0 else delay
    if p.no_ibr then
      ((quality, delay), { st with phase := BolaPhase.steady, placeholder := placeholder })
    else
      let safe_size := st.ibr_safety * (buffer_level - ctx.latency) * tput
      let ibr_safety := max (st.ibr_safety * lowBufferSafetyFactorInit) lowBufferSafetyFactor
      match ibrDownshift ctx.manifest quality safe_size with
      | some q =>
        let min_level := minBufferForQuality ctx.manifest p q
        let max_placeholder := max 0 (min_level - buffer_level)
        ((q, 0),
          { st with
            phase := BolaPhase.steady
            placeholder := min max_placeholder placeholder
            ibr_safety := ibr_safety })
      | none =>
        ((quality, delay),
          { st with
            phase := BolaPhase.steady
            placeholder := placeholder
            ibr_safety := ibr_safety })

/-- `ThroughputRule.safety_factor` (= 0.9). -/
def safetyFactor : ℚ := 9 / 10

/-- `ThroughputRule.abandon_multiplier` (= 1.8). -/
def abandonMultiplier : ℚ := 9 / 5

/-- `ThroughputRule.abandon_grace_time` (= 500 ms). -/
def abandonGraceTime : ℚ := 500

/-- `ThroughputRule.check_abandon(progress, buffer_level)`.  The buffer level
is unused by the source body; `latency` is `gs.latency` and `m` is
`gs.manifest`, both read inside `self.quality_from_throughput`.  The body
declares `global manifest` and dereferences the module-level name `manifest`
(for `segment_time` and for the two `bitrates` lookups), a name sabre.py never
assigns — the session manifest is stored in `gs.manifest` instead —, so
`globalManifest` carries that module-level binding explicitly, with `none` the
state of the module as shipped.  Dereferencing the unbound name raises
`NameError`, modelled as `Except.error ()`; the first dereference sits inside
the estimate comparison, reached exactly when the grace-time test passes. -/
def throughputRuleCheckAbandon (globalManifest : Option ManifestInfo)
    (m : ManifestInfo) (latency : ℚ)
    (progress : DownloadProgress) : Except Unit (Option ℕ) :=
  let dl_time := progress.time - progress.time_to_first_bit.getD 0
  if abandonGraceTime ≤ progress.time ∧ 0 < dl_time then
    let tput := progress.downloaded / dl_time
    let size_left := progress.size - progress.downloaded
    let estimate_time_left := size_left / tput
    match globalManifest with
    | none => Except.error ()
    | some gm =>
      if abandonMultiplier * gm.segment_time < progress.time + estimate_time_left then
        let quality := qualityFromThroughput m latency (tput * safetyFactor)
        let estimate_size := progress.size *
          gm.bitrates.getD quality 0 / gm.bitrates.getD progress.quality 0
        if progress.quality ≤ quality ∨ size_left ≤ estimate_size then Except.ok none
        else Except.ok (some quality)
      else Except.ok none
  else Except.ok none

/-- A small concrete manifest for witnesses. -/
def testManifest : ManifestInfo := ⟨1000, [100, 200, 300], [0, 1, 2], [[100, 200, 300]]⟩

/-- A concrete all-zero session state over `testManifest`, customised by the
individual witnesses. -/
def baseSim : Sim :=
  { manifest := testManifest
    buffer_contents := []
    buffer_fcc := 0
    total_play_time := 0
    rebuffer_time := 0
    rebuffer_event_count := 0
    segment_rebuffer_time := 0
    seek_events := []
    next_segment := 0
    last_seek_time := 0
    played_utility := 0
    played_bitrate := 0
    total_bitrate_change := 0
    last_played := none
    rampup_origin := 0
    rampup_time := none
    rampup_threshold := none
    sustainable_quality := 0
    pending_quality_up := []
    max_buffer_size := 25000
    total_reaction_time := 0
    abr_seeks := [] }

/-- The playback head segment: the segment index of the first buffered entry,
or `next_segment` when the buffer is empty. -/
def headSegment (s : Sim) : ℤ :=
  match s.buffer_contents with
  | [] => s.next_segment
  | en :: _ => en.1

/-- A buffered state for the C2 witnesses: segments 5, 6, 7 buffered,
`next_segment = 8`. -/
def seekSim : Sim :=
  { baseSim with buffer_contents := [(5, 0), (6, 1), (7, 0)], next_segment := 8 }

/-- Segments 5 and 6 buffered, `next_segment = 7`: the state of the C2
counterexample. -/
def backSeekSim : Sim :=
  { baseSim with buffer_contents := [(5, 0), (6, 0)], next_segment := 7 }

/-- Well-formedness of a network trace: non-negative durations, bandwidths
and latencies (the spec demands strictly positive durations; non-negativity
suffices for the claims below). -/
def TraceOK (trace : List NetworkPeriod) : Prop :=
  ∀ p ∈ trace, 0 ≤ p.time ∧ 0 ≤ p.bandwidth ∧ 0 ≤ p.latency

/-- Invariant of the network state: a well-formed trace and a non-negative
remaining time in the current period. -/
def NetInv (s : NetState) : Prop :=
  TraceOK s.trace ∧ 0 ≤ s.time_to_next

/-! ## Claim theorems -/

/-- Claim C10: for every `size ≤ 0`, `NetworkModel.download` returns immediately
a `DownloadProgress` with `size = 0`, `downloaded = 0`, `time = 0`,
`time_to_first_bit = 0` and a null `abandon_to_quality`, leaves the network
state (trace cursor, `time_to_next`, `network_total_time`) unchanged, and
never calls `check_abandon` (the invocation log is empty). -/
theorem download_nonpositive_size (fuel : ℕ) (cfg : NetworkConfig)
    (check_abandon : Option (DownloadProgress → ℚ → Option ℕ)) (size : ℚ)
    (idx : ℤ) (quality : ℕ) (buffer_level : ℚ) (net : NetState)
    (h : size ≤ 0) :
    download fuel cfg check_abandon size idx quality buffer_level net =
      some (⟨idx, quality, 0, 0, 0, some 0, none⟩, net, []) := by
  simp [download, h]

/-- Witness for claim C10 at a concrete input. -/
theorem download_nonpositive_size_witness :
    download 3 defaultNetworkConfig none (-2) 7 1 500 ⟨[⟨1000, 2, 100⟩], 0, 1000, 0⟩ =
      some (⟨7, 1, 0, 0, 0, some 0, none⟩, ⟨[⟨1000, 2, 100⟩], 0, 1000, 0⟩, []) :=
  download_nonpositive_size 3 defaultNetworkConfig none (-2) 7 1 500
    ⟨[⟨1000, 2, 100⟩], 0, 1000, 0⟩ (by norm_num)

/-- Claim C6: code bug.  `ThroughputRule.check_abandon` reads the module-level
global `manifest` for the segment time and the bitrate ladder, but sabre.py
never assigns that name (the session manifest lives in `gs.manifest`), so with
the global unbound the dereference raises `NameError` on exactly the calls
whose download has run at least the 500 ms grace time with a positive download
time — the whole input region over which the claim describes an abandonment
decision — and the function returns without touching the global (yielding no
abandonment) everywhere else. -/
theorem throughputRule_check_abandon_name_error (m : ManifestInfo) (latency : ℚ)
    (progress : DownloadProgress) :
    (throughputRuleCheckAbandon none m latency progress = Except.error () ↔
      500 ≤ progress.time ∧
        0 < progress.time - progress.time_to_first_bit.getD 0) ∧
    (¬ (500 ≤ progress.time ∧
         0 < progress.time - progress.time_to_first_bit.getD 0) →
      throughputRuleCheckAbandon none m latency progress = Except.ok none) := by
  unfold throughputRuleCheckAbandon abandonGraceTime
  by_cases h : (500 : ℚ) ≤ progress.time ∧
      0 < progress.time - progress.time_to_first_bit.getD 0
  · simp [h]
  · simp [h]

/-- Claim C5: in the STARTUP state, `BolaEnh.get_quality_delay` (i) with an
unknown throughput estimate leaves the state (phase and placeholder) unchanged,
and (ii) on the first call at which the throughput is known picks
`q = quality_from_throughput(throughput)`, sets
`placeholder = max(0, min_buffer_for_quality(q) − buffer_level)` (hence
non-negative), transitions to STEADY and returns `(q, 0)`. -/
theorem bolaEnh_startup (p : BolaEnhParams) (ctx : BolaCtx) (st : BolaEnhState)
    (hst : st.phase = BolaPhase.startup) :
    (ctx.throughput = none →
      bolaEnhGetQualityDelay p ctx st = ((st.last_quality, 0), st)) ∧
    (∀ t, ctx.throughput = some t →
      bolaEnhGetQualityDelay p ctx st =
        ((qualityFromThroughput ctx.manifest ctx.latency t, 0),
         { st with
            phase := BolaPhase.steady
            ibr_safety := lowBufferSafetyFactorInit
            placeholder := max 0 (minBufferForQuality ctx.manifest p
              (qualityFromThroughput ctx.manifest ctx.latency t) - ctx.buffer_level) }) ∧
      0 ≤ max 0 (minBufferForQuality ctx.manifest p
            (qualityFromThroughput ctx.manifest ctx.latency t) - ctx.buffer_level)) := by
  constructor
  · intro h
    simp [bolaEnhGetQualityDelay, hst, h]
  · intro t h
    refine ⟨?_, le_max_left 0 _⟩
    simp [bolaEnhGetQualityDelay, hst, h]

/-- Witness for claim C5 at a concrete input: two bitrates, throughput known. -/
theorem bolaEnh_startup_witness :
    bolaEnhGetQualityDelay ⟨[1, 2], 3000, 5, false, false⟩
        ⟨⟨1000, [100, 200], [0, 1], []⟩, some 250, 0, 0⟩
        ⟨BolaPhase.startup, 7, 0, 9 / 10⟩ =
      ((1, 0), ⟨BolaPhase.steady, 15000, 0, 9 / 10⟩) ∧ (0 : ℚ) ≤ 15000 := by
  have h := (bolaEnh_startup ⟨[1, 2], 3000, 5, false, false⟩
    ⟨⟨1000, [100, 200], [0, 1], []⟩, some 250, 0, 0⟩
    ⟨BolaPhase.startup, 7, 0, 9 / 10⟩ rfl).2 250 rfl
  refine ⟨h.1.trans ?_, by norm_num⟩
  norm_num [qualityFromThroughput, qftGo, minBufferForQuality, List.range_succ,
    lowBufferSafetyFactorInit]

/-- Claim C4, counterexample: `quality_from_throughput` does not return "the
highest `q` such that `latency + segment_time · bitrates[q+1]/t ≤
segment_time`".  With bitrates `[100, 200, 300]`, `segment_time = 1000`,
`latency = 0` and `t = 250`, the inequality holds at `q = 0` (using
`bitrates[1] = 200`) and fails at `q = 1` (using `bitrates[2] = 300`), so the
highest `q` satisfying it is `0`; the code returns `1`.  (The returned index
itself fails the claim's defining inequality.) -/
theorem qualityFromThroughput_claim_counterexample :
    qualityFromThroughput ⟨1000, [100, 200, 300], [0, 1, 2], []⟩ 0 250 = 1 ∧
    ((0 : ℚ) + 1000 * 200 / 250 ≤ 1000) ∧
    ¬((0 : ℚ) + 1000 * 300 / 250 ≤ 1000) := by
  refine ⟨by norm_num [qualityFromThroughput, qftGo], by norm_num, by norm_num⟩

/-- Loop invariant of `qftGo`: every index between `1` and the result
satisfies the loop condition (provided every index up to the start did). -/
theorem qftGo_holds (m : ManifestInfo) (latency tput : ℚ) :
    ∀ fuel q : ℕ,
      (∀ j, 1 ≤ j → j ≤ q →
        latency + m.segment_time * m.bitrates.getD j 0 / tput ≤ m.segment_time) →
      ∀ j, 1 ≤ j → j ≤ qftGo m latency tput fuel q →
        latency + m.segment_time * m.bitrates.getD j 0 / tput ≤ m.segment_time := by
  intro fuel
  induction fuel with
  | zero => intro q hq j h1 h2; exact hq j h1 (by simpa [qftGo] using h2)
  | succ n ih =>
    intro q hq j h1 h2
    by_cases hg : q + 1 < m.bitrates.length ∧
        latency + m.segment_time * m.bitrates.getD (q + 1) 0 / tput ≤ m.segment_time
    · rw [qftGo, if_pos hg] at h2
      refine ih (q + 1) (fun j hj1 hj2 => ?_) j h1 h2
      rcases Nat.lt_or_ge j (q + 1) with hj | hj
      · exact hq j hj1 (Nat.lt_succ_iff.mp hj)
      · have : j = q + 1 := le_antisymm hj2 hj
        rw [this]; exact hg.2
    · rw [qftGo, if_neg hg] at h2
      exact hq j h1 h2

/-- When the fuel covers the ladder, `qftGo` only stops at the top of the
ladder or at an index whose successor fails the loop condition. -/
theorem qftGo_stop (m : ManifestInfo) (latency tput : ℚ) :
    ∀ fuel q : ℕ, m.bitrates.length ≤ fuel + q →
      qftGo m latency tput fuel q + 1 < m.bitrates.length →
      ¬(latency + m.segment_time * m.bitrates.getD (qftGo m latency tput fuel q + 1) 0 / tput
          ≤ m.segment_time) := by
  intro fuel
  induction fuel with
  | zero =>
    intro q hfe hlt
    rw [qftGo] at hlt
    omega
  | succ n ih =>
    intro q hfe hlt
    by_cases hg : q + 1 < m.bitrates.length ∧
        latency + m.segment_time * m.bitrates.getD (q + 1) 0 / tput ≤ m.segment_time
    · rw [qftGo, if_pos hg] at hlt ⊢
      exact ih (q + 1) (by omega) hlt
    · rw [qftGo, if_neg hg] at hlt ⊢
      intro hc
      exact hg ⟨hlt, hc⟩

/-- `qftGo` never leaves the ladder. -/
theorem qftGo_lt_length (m : ManifestInfo) (latency tput : ℚ) :
    ∀ fuel q : ℕ, q < m.bitrates.length →
      qftGo m latency tput fuel q < m.bitrates.length := by
  intro fuel
  induction fuel with
  | zero => intro q hq; simpa [qftGo] using hq
  | succ n ih =>
    intro q hq
    by_cases hg : q + 1 < m.bitrates.length ∧
        latency + m.segment_time * m.bitrates.getD (q + 1) 0 / tput ≤ m.segment_time
    · rw [qftGo, if_pos hg]; exact ih (q + 1) hg.1
    · rw [qftGo, if_neg hg]; exact hq

/-- Claim C4, amended: for throughput `t > 0` and a strictly increasing bitrate
ladder, `quality_from_throughput(t)` returns an index `r` in the valid range
`[0, |bitrates|-1]` such that the fitting condition
`latency + segment_time · bitrates[j]/t ≤ segment_time` holds for every level
`1 ≤ j ≤ r` and fails for every level above `r` — i.e. the highest `q` such
that `q = 0` or level `q` itself (not `q+1`, as the claim stated) fits within
one playout interval. -/
theorem qualityFromThroughput_spec (m : ManifestInfo) (latency tput : ℚ)
    (ht : 0 < tput) (hp : 0 < m.segment_time)
    (hmono : m.bitrates.Pairwise (· < ·)) (hne : m.bitrates ≠ []) :
    qualityFromThroughput m latency tput < m.bitrates.length ∧
    (∀ j, 1 ≤ j → j ≤ qualityFromThroughput m latency tput →
      latency + m.segment_time * m.bitrates.getD j 0 / tput ≤ m.segment_time) ∧
    (∀ j, qualityFromThroughput m latency tput < j → j < m.bitrates.length →
      ¬(latency + m.segment_time * m.bitrates.getD j 0 / tput ≤ m.segment_time)) := by
  have hlen : 0 < m.bitrates.length := List.length_pos.mpr hne
  refine ⟨qftGo_lt_length m latency tput _ 0 hlen, qftGo_holds m latency tput _ 0
    (by omega), ?_⟩
  intro j hj hjlen
  set r := qualityFromThroughput m latency tput with hr
  have hstop := qftGo_stop m latency tput m.bitrates.length 0 (by omega)
  rw [← qualityFromThroughput] at hstop
  have hr1 : r + 1 < m.bitrates.length := by omega
  have hnot := hstop hr1
  rcases Nat.eq_or_lt_of_le (Nat.succ_le_of_lt hj) with heq | hlt
  · rwa [← heq]
  · -- j > r + 1: the bitrate at j dominates the one at r + 1
    intro hc
    apply hnot
    have hb : m.bitrates.getD (r + 1) 0 ≤ m.bitrates.getD j 0 := by
      rw [List.getD_eq_get _ _ hr1, List.getD_eq_get _ _ hjlen]
      exact le_of_lt (List.pairwise_iff_get.mp hmono ⟨r + 1, hr1⟩ ⟨j, hjlen⟩ hlt)
    refine le_trans (add_le_add_left ((div_le_div_right ht).mpr
      (mul_le_mul_of_nonneg_left hb hp.le)) latency) hc

/-- Witness for the amended claim C4 at the counterexample's input: the returned
index is `1`, in range, level `1` fits and level `2` does not. -/
theorem qualityFromThroughput_spec_witness :
    qualityFromThroughput ⟨1000, [100, 200, 300], [0, 1, 2], []⟩ 0 250 < 3 ∧
    (0 + (1000 : ℚ) * (([100, 200, 300] : List ℚ).getD 1 0) / 250 ≤ 1000) ∧
    ¬(0 + (1000 : ℚ) * (([100, 200, 300] : List ℚ).getD 2 0) / 250 ≤ 1000) := by
  have h := qualityFromThroughput_spec ⟨1000, [100, 200, 300], [0, 1, 2], []⟩ 0 250
    (by norm_num) (by norm_num) (by norm_num [List.pairwise_cons]) (by simp)
  refine ⟨h.1, h.2.1 1 (by norm_num) ?_, h.2.2 2 ?_ (by norm_num)⟩
  · norm_num [qualityFromThroughput, qftGo]
  · norm_num [qualityFromThroughput, qftGo]

/-- `interrupted_by_seek` with no pending seek: the play clock advances. -/
theorem interruptedBySeek_nil (delta : ℚ) (s : Sim) (hse : s.seek_events = []) :
    interruptedBySeek delta s =
      (false, { s with total_play_time := s.total_play_time + delta }) := by
  simp only [interruptedBySeek, hse]

/-- `interrupted_by_seek` when the head seek misses the interval. -/
theorem interruptedBySeek_miss (delta : ℚ) (s : Sim) (e : SeekEvent)
    (rest : List SeekEvent) (hse : s.seek_events = e :: rest)
    (hg : ¬(s.total_play_time < e.seek_when * 1000 ∧
        e.seek_when * 1000 ≤ s.total_play_time + delta)) :
    interruptedBySeek delta s =
      (false, { s with total_play_time := s.total_play_time + delta }) := by
  simp only [interruptedBySeek, hse]
  rw [if_neg hg]

/-- `interrupted_by_seek` when the head seek falls inside the interval. -/
theorem interruptedBySeek_hit (delta : ℚ) (s : Sim) (e : SeekEvent)
    (rest : List SeekEvent) (hse : s.seek_events = e :: rest)
    (hg : s.total_play_time < e.seek_when * 1000 ∧
        e.seek_when * 1000 ≤ s.total_play_time + delta) :
    interruptedBySeek delta s = (true, applySeek e rest s) := by
  simp only [interruptedBySeek, hse]
  rw [if_pos hg]

/-- Claim C1, amended: on `deplete_buffer(time)` with an empty playback buffer,
the *whole* `time` is added to `rebuffer_time` in every case.  If no pending
seek falls inside the interval, `rebuffer_event_count` is incremented exactly
once, `segment_rebuffer_time` is set to `time` and playback time advances by
`time`.  If a pending seek falls inside the interval, the call applies the
seek (play time is set to the seek instant, the event is consumed, the ABR is
notified) and returns the interrupted status — but the rebuffer charge is
*not* split at the seek instant (the full `time` stays charged), and
`rebuffer_event_count` and `segment_rebuffer_time` are left untouched. -/
theorem depleteBuffer_empty (time : ℚ) (s : Sim) (h : s.buffer_contents = []) :
    (s.seek_events = [] →
      depleteBuffer time s = some (true,
        { s with
            rebuffer_time := s.rebuffer_time + time
            total_play_time := s.total_play_time + time
            rebuffer_event_count := s.rebuffer_event_count + 1
            segment_rebuffer_time := time })) ∧
    (∀ e rest, s.seek_events = e :: rest →
      (¬(s.total_play_time < e.seek_when * 1000 ∧
          e.seek_when * 1000 ≤ s.total_play_time + time) →
        depleteBuffer time s = some (true,
          { s with
              rebuffer_time := s.rebuffer_time + time
              total_play_time := s.total_play_time + time
              rebuffer_event_count := s.rebuffer_event_count + 1
              segment_rebuffer_time := time })) ∧
      ((s.total_play_time < e.seek_when * 1000 ∧
          e.seek_when * 1000 ≤ s.total_play_time + time) →
        depleteBuffer time s = some (false,
          applySeek e rest { s with rebuffer_time := s.rebuffer_time + time }) ∧
        (applySeek e rest
            { s with rebuffer_time := s.rebuffer_time + time }).rebuffer_time =
          s.rebuffer_time + time ∧
        (applySeek e rest
            { s with rebuffer_time := s.rebuffer_time + time }).rebuffer_event_count =
          s.rebuffer_event_count ∧
        (applySeek e rest
            { s with rebuffer_time := s.rebuffer_time + time }).segment_rebuffer_time =
          s.segment_rebuffer_time ∧
        (applySeek e rest
            { s with rebuffer_time := s.rebuffer_time + time }).total_play_time =
          e.seek_when * 1000 ∧
        (applySeek e rest
            { s with rebuffer_time := s.rebuffer_time + time }).seek_events = rest ∧
        (applySeek e rest
            { s with rebuffer_time := s.rebuffer_time + time }).abr_seeks =
          s.abr_seeks ++ [e.seek_to * 1000])) := by
  refine ⟨?_, ?_⟩
  · intro hse
    rw [depleteBuffer, if_pos h,
      interruptedBySeek_nil time { s with rebuffer_time := s.rebuffer_time + time } hse]
  · intro e rest hse
    constructor
    · intro hng
      rw [depleteBuffer, if_pos h,
        interruptedBySeek_miss time { s with rebuffer_time := s.rebuffer_time + time }
          e rest hse hng]
    · intro hg
      refine ⟨?_, rfl, rfl, rfl, rfl, rfl, rfl⟩
      rw [depleteBuffer, if_pos h,
        interruptedBySeek_hit time { s with rebuffer_time := s.rebuffer_time + time }
          e rest hse hg]

/-- Claim C1, counterexample: with an empty buffer, `total_play_time = 0`, a
pending seek at wall time 1 s and `deplete_buffer(2000)`, the code charges the
full 2000 ms to `rebuffer_time` (the claim predicts only the 1000 ms before
the seek instant) and does not increment `rebuffer_event_count` (the claim
predicts exactly one increment). -/
theorem depleteBuffer_split_counterexample :
    (depleteBuffer 2000 { baseSim with seek_events := [⟨1, 0⟩] }).map
        (fun r => (r.1, r.2.rebuffer_time, r.2.rebuffer_event_count,
          r.2.total_play_time)) =
      some (false, 2000, 0, 1000) ∧ (2000 : ℚ) ≠ 1000 := by
  constructor
  · norm_num [depleteBuffer, interruptedBySeek, applySeek, seekNewSegment, baseSim,
      testManifest]
  · norm_num

/-- Witness for the amended claim C1, exercising both the undisturbed case and
the seek-interrupted case at concrete inputs. -/
theorem depleteBuffer_empty_witness :
    (depleteBuffer 300 baseSim = some (true,
      { baseSim with
          rebuffer_time := 300
          total_play_time := 300
          rebuffer_event_count := 1
          segment_rebuffer_time := 300 })) ∧
    (depleteBuffer 2000 { baseSim with seek_events := [⟨1, 5⟩] }).map
        (fun r => (r.1, r.2.rebuffer_time, r.2.rebuffer_event_count,
          r.2.total_play_time, r.2.abr_seeks)) =
      some (false, 2000, 0, 1000, [5000]) := by
  constructor
  · have h := (depleteBuffer_empty 300 baseSim rfl).1 rfl
    rw [h]
    norm_num [baseSim]
  · have h := ((depleteBuffer_empty 2000 { baseSim with seek_events := [⟨1, 5⟩] }
      rfl).2 ⟨1, 5⟩ [] rfl).2 (by norm_num [baseSim])
    rw [h.1]
    simp only [Option.map_some]
    norm_num [applySeek, seekNewSegment, baseSim, testManifest]

/-- Claim C2, amended: for every processed seek (with positive segment
duration), the target segment index is `seekNewSegment` (floor of
`seek_to·1000 / segment_time`, plus one when the within-segment offset is at
least `segment_time/2`), and:
* when the target segment lies inside the buffered range
  `[next_segment − |buffer|, next_segment)`, the buffered entries from it
  onward are preserved and the earlier ones dropped (under the buffer's
  contiguity invariant the kept entries are exactly those at or after the
  target and the head segment is the target);
* otherwise — including a backward seek to *before* the buffered range, where
  the claim's "entries at or after the new segment are preserved" fails — the
  buffer is cleared and `next_segment` is set to the target;
* `buffer_fcc` becomes the within-segment offset when the seek lands inside
  the chosen segment and `0` otherwise, hence `buffer_fcc ∈ [0, segment_time)`
  afterwards. -/
theorem applySeek_spec (e : SeekEvent) (rest : List SeekEvent) (s : Sim)
    (hseg : 0 < s.manifest.segment_time) :
    ((s.buffer_contents ≠ [] ∧
        s.next_segment - s.buffer_contents.length ≤ seekNewSegment s.manifest e.seek_to ∧
        seekNewSegment s.manifest e.seek_to < s.next_segment) →
      (applySeek e rest s).buffer_contents =
        s.buffer_contents.drop
          (seekNewSegment s.manifest e.seek_to -
            (s.next_segment - s.buffer_contents.length)).toNat ∧
      (applySeek e rest s).next_segment = s.next_segment ∧
      ((∀ i (hi : i < s.buffer_contents.length),
          (s.buffer_contents.get ⟨i, hi⟩).1 =
            s.next_segment - s.buffer_contents.length + i) →
        headSegment (applySeek e rest s) = seekNewSegment s.manifest e.seek_to ∧
        (∀ en ∈ (applySeek e rest s).buffer_contents,
          seekNewSegment s.manifest e.seek_to ≤ en.1) ∧
        (∀ en ∈ s.buffer_contents.take
            (seekNewSegment s.manifest e.seek_to -
              (s.next_segment - s.buffer_contents.length)).toNat,
          en.1 < seekNewSegment s.manifest e.seek_to))) ∧
    (¬(s.buffer_contents ≠ [] ∧
        s.next_segment - s.buffer_contents.length ≤ seekNewSegment s.manifest e.seek_to ∧
        seekNewSegment s.manifest e.seek_to < s.next_segment) →
      (applySeek e rest s).buffer_contents = [] ∧
      (applySeek e rest s).next_segment = seekNewSegment s.manifest e.seek_to ∧
      headSegment (applySeek e rest s) = seekNewSegment s.manifest e.seek_to) ∧
    ((applySeek e rest s).buffer_fcc =
      (if seekNewSegment s.manifest e.seek_to =
          ⌊e.seek_to * 1000 / s.manifest.segment_time⌋ then
        e.seek_to * 1000 -
          ⌊e.seek_to * 1000 / s.manifest.segment_time⌋ * s.manifest.segment_time
      else 0) ∧
      0 ≤ (applySeek e rest s).buffer_fcc ∧
      (applySeek e rest s).buffer_fcc < s.manifest.segment_time) := by
  have hoff0 : (0 : ℚ) ≤ e.seek_to * 1000 -
      ⌊e.seek_to * 1000 / s.manifest.segment_time⌋ * s.manifest.segment_time := by
    have h1 : (⌊e.seek_to * 1000 / s.manifest.segment_time⌋ : ℚ) ≤
        e.seek_to * 1000 / s.manifest.segment_time := Int.floor_le _
    have h2 := mul_le_mul_of_nonneg_right h1 hseg.le
    rw [div_mul_cancel₀ _ (ne_of_gt hseg)] at h2
    linarith
  have hoffs : e.seek_to * 1000 -
      ⌊e.seek_to * 1000 / s.manifest.segment_time⌋ * s.manifest.segment_time <
      s.manifest.segment_time := by
    have h1 : e.seek_to * 1000 / s.manifest.segment_time <
        ⌊e.seek_to * 1000 / s.manifest.segment_time⌋ + 1 := Int.lt_floor_add_one _
    have h2 := mul_lt_mul_of_pos_right h1 hseg
    rw [div_mul_cancel₀ _ (ne_of_gt hseg)] at h2
    linarith [h2]
  refine ⟨?_, ?_, ?_⟩
  · intro hkeep
    have hbuf : (applySeek e rest s).buffer_contents =
        s.buffer_contents.drop
          (seekNewSegment s.manifest e.seek_to -
            (s.next_segment - s.buffer_contents.length)).toNat := by
      simp only [applySeek]
      rw [if_pos (by simpa using hkeep)]
    have hnext : (applySeek e rest s).next_segment = s.next_segment := by
      simp only [applySeek]
      rw [if_pos (by simpa using hkeep)]
    refine ⟨hbuf, hnext, ?_⟩
    intro hcontig
    obtain ⟨hne, hbase, hlt⟩ := hkeep
    set ns := seekNewSegment s.manifest e.seek_to with hns
    set base : ℤ := s.next_segment - s.buffer_contents.length with hbase'
    have hk : ((ns - base).toNat : ℤ) = ns - base := Int.toNat_of_nonneg (by omega)
    have hklen : (ns - base).toNat < s.buffer_contents.length := by omega
    have hgetE : ∀ j (hj : j < s.buffer_contents.length),
        (s.buffer_contents[j]).1 = base + j := fun j hj => by
      have := hcontig j hj
      rwa [List.get_eq_getElem] at this
    constructor
    · -- head of the kept suffix is the target segment
      have hlen' : 0 < (s.buffer_contents.drop (ns - base).toNat).length := by
        rw [List.length_drop]; omega
      obtain ⟨en, t, heq⟩ :=
        List.exists_cons_of_ne_nil (List.ne_nil_of_length_pos hlen')
      have h0 : (s.buffer_contents.drop (ns - base).toNat)[0] = en := by
        simp [heq]
      rw [List.getElem_drop] at h0
      have hhead : headSegment (applySeek e rest s) = en.1 := by
        simp only [headSegment, hbuf, heq]
      rw [hhead, ← h0, hgetE ((ns - base).toNat + 0) (by omega)]
      omega
    constructor
    · intro en hen
      rw [hbuf] at hen
      obtain ⟨j, hj, hje⟩ := List.mem_iff_getElem.mp hen
      have hj' : (ns - base).toNat + j < s.buffer_contents.length := by
        rw [List.length_drop] at hj; omega
      rw [List.getElem_drop] at hje
      have := hgetE ((ns - base).toNat + j) hj'
      rw [hje] at this
      omega
    · intro en hen
      obtain ⟨j, hj, hje⟩ := List.mem_iff_getElem.mp hen
      have hjk : j < (ns - base).toNat :=
        lt_of_lt_of_le hj (List.length_take_le _ _)
      have hj' : j < s.buffer_contents.length := by omega
      rw [List.getElem_take] at hje
      have := hgetE j hj'
      rw [hje] at this
      omega
  · intro hkeep
    have hbuf : (applySeek e rest s).buffer_contents = [] := by
      simp only [applySeek]
      rw [if_neg (by simpa using hkeep)]
    have hnext : (applySeek e rest s).next_segment =
        seekNewSegment s.manifest e.seek_to := by
      simp only [applySeek]
      rw [if_neg (by simpa using hkeep)]
    exact ⟨hbuf, hnext, by rw [headSegment, hbuf, hnext]⟩
  · have hfcc : (applySeek e rest s).buffer_fcc =
        (if seekNewSegment s.manifest e.seek_to =
            ⌊e.seek_to * 1000 / s.manifest.segment_time⌋ then
          e.seek_to * 1000 -
            ⌊e.seek_to * 1000 / s.manifest.segment_time⌋ * s.manifest.segment_time
        else 0) := rfl
    refine ⟨hfcc, ?_, ?_⟩
    · rw [hfcc]
      split_ifs
      · exact hoff0
      · exact le_refl 0
    · rw [hfcc]
      split_ifs
      · exact hoffs
      · exact hseg

/-- Claim C2, counterexample: a backward seek to 2.3 s (target segment 2) with
segments 5 and 6 buffered.  Both buffered entries lie at or after the new
segment 2, yet the code clears the buffer instead of preserving them, refuting
"buffered entries at or after the new segment are preserved". -/
theorem applySeek_preserve_counterexample :
    seekNewSegment testManifest (23 / 10) = 2 ∧
    backSeekSim.buffer_contents.all (fun en => decide (2 ≤ en.1)) = true ∧
    (applySeek ⟨1, 23 / 10⟩ [] backSeekSim).buffer_contents = [] ∧
    (applySeek ⟨1, 23 / 10⟩ [] backSeekSim).next_segment = 2 := by
  refine ⟨?_, by simp [backSeekSim, baseSim], ?_, ?_⟩ <;>
    norm_num [applySeek, seekNewSegment, backSeekSim, baseSim, testManifest]

/-- Witness for the amended claim C2: a seek to 6.3 s into the buffered range
keeps the suffix from segment 6 on, the head segment is 6, and
`buffer_fcc = 300 ∈ [0, 1000)`. -/
theorem applySeek_spec_witness :
    (applySeek ⟨1, 63 / 10⟩ [] seekSim).buffer_contents = [(6, 1), (7, 0)] ∧
    (applySeek ⟨1, 63 / 10⟩ [] seekSim).next_segment = 8 ∧
    headSegment (applySeek ⟨1, 63 / 10⟩ [] seekSim) = 6 ∧
    (applySeek ⟨1, 63 / 10⟩ [] seekSim).buffer_fcc = 300 ∧
    0 ≤ (applySeek ⟨1, 63 / 10⟩ [] seekSim).buffer_fcc ∧
    (applySeek ⟨1, 63 / 10⟩ [] seekSim).buffer_fcc < 1000 := by
  have hns : seekNewSegment seekSim.manifest (63 / 10) = 6 := by
    norm_num [seekNewSegment, seekSim, baseSim, testManifest]
  have h := applySeek_spec ⟨1, 63 / 10⟩ [] seekSim
    (by norm_num [seekSim, baseSim, testManifest])
  have hkeep : seekSim.buffer_contents ≠ [] ∧
      seekSim.next_segment - seekSim.buffer_contents.length ≤
        seekNewSegment seekSim.manifest (63 / 10) ∧
      seekNewSegment seekSim.manifest (63 / 10) < seekSim.next_segment := by
    rw [hns]
    refine ⟨by simp [seekSim, baseSim], ?_, ?_⟩ <;> norm_num [seekSim, baseSim]
  obtain ⟨hb, hn, hrest⟩ := h.1 hkeep
  have hcontig : ∀ i (hi : i < seekSim.buffer_contents.length),
      (seekSim.buffer_contents.get ⟨i, hi⟩).1 =
        seekSim.next_segment - seekSim.buffer_contents.length + i := by
    intro i hi
    have hi3 : i < 3 := by simpa [seekSim, baseSim] using hi
    interval_cases i <;> norm_num [seekSim, baseSim]
  obtain ⟨hhead, -, -⟩ := hrest hcontig
  refine ⟨?_, ?_, ?_, ?_, h.2.2.2.1, ?_⟩
  · rw [hb, hns]
    norm_num [seekSim, baseSim]
  · rw [hn]
    norm_num [seekSim, baseSim]
  · rw [hhead, hns]
  · rw [h.2.2.1, hns]
    norm_num [seekSim, baseSim, testManifest]
  · have := h.2.2.2.2
    simpa [seekSim, baseSim, testManifest] using this

/-- Any `getD` access into a well-formed trace yields non-negative fields. -/
theorem traceOK_getD (trace : List NetworkPeriod) (h : TraceOK trace) (i : ℕ) :
    0 ≤ (trace.getD i ⟨0, 0, 0⟩).time ∧ 0 ≤ (trace.getD i ⟨0, 0, 0⟩).bandwidth ∧
    0 ≤ (trace.getD i ⟨0, 0, 0⟩).latency := by
  rcases Nat.lt_or_ge i trace.length with hi | hi
  · rw [List.getD_eq_getElem _ _ hi]
    exact h _ (List.getElem_mem hi)
  · rw [List.getD_eq_default _ _ hi]
    norm_num

/-- The current period of a well-formed state has non-negative fields. -/
theorem period_ok (s : NetState) (h : TraceOK s.trace) :
    0 ≤ s.period.time ∧ 0 ≤ s.period.bandwidth ∧ 0 ≤ s.period.latency :=
  traceOK_getD s.trace h s.index

/-- `next_network_period` preserves the invariant, the trace and the clock. -/
theorem nextNetworkPeriod_spec (s : NetState) (h : TraceOK s.trace) :
    NetInv (nextNetworkPeriod s) ∧ (nextNetworkPeriod s).trace = s.trace ∧
    (nextNetworkPeriod s).network_total_time = s.network_total_time := by
  refine ⟨⟨h, ?_⟩, rfl, rfl⟩
  exact (traceOK_getD s.trace h _).1

/-- `do_latency_delay`: the charged delay is non-negative, is added exactly to
`network_total_time`, and the invariant is preserved. -/
theorem doLatencyDelay_spec :
    ∀ (fuel : ℕ) (du : ℚ) (s : NetState) (r : ℚ) (s' : NetState),
      doLatencyDelay fuel du s = some (r, s') → NetInv s →
      0 ≤ r ∧ s'.network_total_time = s.network_total_time + r ∧ NetInv s' ∧
      s'.trace = s.trace := by
  intro fuel
  induction fuel with
  | zero => intro du s r s' hsome; simp [doLatencyDelay] at hsome
  | succ n ih =>
    intro du s r s' hsome hinv
    rw [doLatencyDelay] at hsome
    by_cases hdu : 0 < du
    · rw [if_pos hdu] at hsome
      by_cases hfit : du * s.period.latency ≤ s.time_to_next
      · rw [if_pos hfit] at hsome
        have hlat : 0 ≤ s.period.latency := (period_ok s hinv.1).2.2
        obtain ⟨hr, hs⟩ : du * s.period.latency = r ∧ _ = s' := by
          simpa using hsome
        subst hr hs
        refine ⟨mul_nonneg hdu.le hlat, rfl, ⟨hinv.1, by simp; linarith⟩, rfl⟩
      · rw [if_neg hfit] at hsome
        cases hrec : doLatencyDelay n (du - s.time_to_next / s.period.latency)
            (nextNetworkPeriod
              { s with network_total_time := s.network_total_time + s.time_to_next }) with
        | none => rw [hrec] at hsome; simp at hsome
        | some v =>
          obtain ⟨d, s₃⟩ := v
          rw [hrec] at hsome
          obtain ⟨hr, hs⟩ : s.time_to_next + d = r ∧ s₃ = s' := by
            simpa using hsome
          subst hr hs
          have hnext := nextNetworkPeriod_spec
            { s with network_total_time := s.network_total_time + s.time_to_next } hinv.1
          obtain ⟨hd, hntt, hinv₃, htr⟩ := ih _ _ _ _ hrec hnext.1
          refine ⟨by linarith [hinv.2], ?_, hinv₃, by rw [htr, hnext.2.1]⟩
          rw [hntt, hnext.2.2]
          simp
          ring
    · rw [if_neg hdu] at hsome
      obtain ⟨hr, hs⟩ : (0 : ℚ) = r ∧ s = s' := by simpa using hsome
      subst hr hs
      exact ⟨le_refl 0, by simp, hinv, rfl⟩

/-- `do_download`: the download time is non-negative (positive for a positive
size), is added exactly to `network_total_time`, and the invariant holds. -/
theorem doDownload_spec :
    ∀ (fuel : ℕ) (size : ℚ) (s : NetState) (r : ℚ) (s' : NetState),
      doDownload fuel size s = some (r, s') → NetInv s →
      0 ≤ r ∧ s'.network_total_time = s.network_total_time + r ∧ NetInv s' ∧
      s'.trace = s.trace ∧ (0 < size → 0 < r) := by
  intro fuel
  induction fuel with
  | zero => intro size s r s' hsome; simp [doDownload] at hsome
  | succ n ih =>
    intro size s r s' hsome hinv
    rw [doDownload] at hsome
    by_cases hsz : 0 < size
    · rw [if_pos hsz] at hsome
      by_cases hfit : size ≤ s.time_to_next * s.period.bandwidth
      · rw [if_pos hfit] at hsome
        have hbw : 0 < s.period.bandwidth := by
          rcases lt_or_eq_of_le (period_ok s hinv.1).2.1 with h | h
          · exact h
          · rw [← h] at hfit; simp at hfit; linarith
        obtain ⟨hr, hs⟩ : size / s.period.bandwidth = r ∧ _ = s' := by
          simpa using hsome
        subst hr hs
        have hrpos : 0 < size / s.period.bandwidth := div_pos hsz hbw
        refine ⟨hrpos.le, rfl, ⟨hinv.1, ?_⟩, rfl, fun _ => hrpos⟩
        simp
        rw [div_le_iff₀ hbw]
        linarith [hfit]
      · rw [if_neg hfit] at hsome
        cases hrec : doDownload n (size - s.time_to_next * s.period.bandwidth)
            (nextNetworkPeriod
              { s with network_total_time := s.network_total_time + s.time_to_next }) with
        | none => rw [hrec] at hsome; simp at hsome
        | some v =>
          obtain ⟨d, s₃⟩ := v
          rw [hrec] at hsome
          obtain ⟨hr, hs⟩ : s.time_to_next + d = r ∧ s₃ = s' := by
            simpa using hsome
          subst hr hs
          have hnext := nextNetworkPeriod_spec
            { s with network_total_time := s.network_total_time + s.time_to_next } hinv.1
          obtain ⟨hd, hntt, hinv₃, htr, hpos⟩ := ih _ _ _ _ hrec hnext.1
          have hd' : 0 < d := hpos (by push_neg at hfit; linarith)
          refine ⟨by linarith [hinv.2], ?_, hinv₃, by rw [htr, hnext.2.1],
            fun _ => by linarith [hinv.2]⟩
          rw [hntt, hnext.2.2]
          simp
          ring
    · rw [if_neg hsz] at hsome
      obtain ⟨hr, hs⟩ : (0 : ℚ) = r ∧ s = s' := by simpa using hsome
      subst hr hs
      exact ⟨le_refl 0, by simp, hinv, rfl, fun h => absurd h hsz⟩

/-- `do_minimal_latency_delay`: the charged time is non-negative, is added
exactly to `network_total_time`, and the invariant is preserved. -/
theorem doMinimalLatencyDelay_spec :
    ∀ (fuel : ℕ) (du mt : ℚ) (s : NetState) (u t : ℚ) (s' : NetState),
      doMinimalLatencyDelay fuel du mt s = some ((u, t), s') → NetInv s →
      0 ≤ t ∧ s'.network_total_time = s.network_total_time + t ∧ NetInv s' ∧
      s'.trace = s.trace := by
  intro fuel
  induction fuel with
  | zero => intro du mt s u t s' hsome; simp [doMinimalLatencyDelay] at hsome
  | succ n ih =>
    intro du mt s u t s' hsome hinv
    rw [doMinimalLatencyDelay] at hsome
    by_cases hg : 0 < du ∧ 0 < mt
    · rw [if_pos hg] at hsome
      have hlat : 0 ≤ s.period.latency := (period_ok s hinv.1).2.2
      by_cases h1 : du * s.period.latency ≤ mt ∧ du * s.period.latency ≤ s.time_to_next
      · rw [if_pos h1] at hsome
        simp only [] at hsome
        cases hrec : doMinimalLatencyDelay n (du - du) (mt - du * s.period.latency)
            ({ s with
                time_to_next := s.time_to_next - du * s.period.latency
                network_total_time := s.network_total_time + du * s.period.latency }) with
        | none => rw [hrec] at hsome; simp at hsome
        | some v =>
          obtain ⟨⟨u₂, t₂⟩, s₃⟩ := v
          rw [hrec] at hsome
          obtain ⟨⟨-, hr⟩, hs⟩ : (du + u₂ = u ∧ du * s.period.latency + t₂ = t) ∧
              s₃ = s' := by
            simpa using hsome
          subst hr hs
          have hstep : 0 ≤ du * s.period.latency := mul_nonneg hg.1.le hlat
          obtain ⟨ht₂, hntt, hinv₃, htr⟩ := ih _ _ _ _ _ _ hrec
            ⟨hinv.1, by simp; linarith [h1.2]⟩
          refine ⟨by linarith, ?_, hinv₃, htr⟩
          rw [hntt]
          simp
          ring
      · rw [if_neg h1] at hsome
        by_cases h2 : mt ≤ s.time_to_next
        · rw [if_pos h2] at hsome
          simp only [] at hsome
          cases hrec : doMinimalLatencyDelay n (du - mt / s.period.latency) (mt - mt)
              ({ s with
                  time_to_next := s.time_to_next - mt
                  network_total_time := s.network_total_time + mt }) with
          | none => rw [hrec] at hsome; simp at hsome
          | some v =>
            obtain ⟨⟨u₂, t₂⟩, s₃⟩ := v
            rw [hrec] at hsome
            obtain ⟨⟨-, hr⟩, hs⟩ : (mt / s.period.latency + u₂ = u ∧ mt + t₂ = t) ∧
                s₃ = s' := by
              simpa using hsome
            subst hr hs
            obtain ⟨ht₂, hntt, hinv₃, htr⟩ := ih _ _ _ _ _ _ hrec
              ⟨hinv.1, by simp; linarith [h2]⟩
            refine ⟨by linarith [hg.2], ?_, hinv₃, htr⟩
            rw [hntt]
            simp
            ring
        · rw [if_neg h2] at hsome
          simp only [] at hsome
          cases hrec : doMinimalLatencyDelay n (du - s.time_to_next / s.period.latency)
              (mt - s.time_to_next)
              (nextNetworkPeriod
                { s with network_total_time := s.network_total_time + s.time_to_next }) with
          | none => rw [hrec] at hsome; simp at hsome
          | some v =>
            obtain ⟨⟨u₂, t₂⟩, s₃⟩ := v
            rw [hrec] at hsome
            obtain ⟨⟨-, hr⟩, hs⟩ : (s.time_to_next / s.period.latency + u₂ = u ∧
                s.time_to_next + t₂ = t) ∧ s₃ = s' := by
              simpa using hsome
            subst hr hs
            have hnext := nextNetworkPeriod_spec
              { s with network_total_time := s.network_total_time + s.time_to_next } hinv.1
            obtain ⟨ht₂, hntt, hinv₃, htr⟩ := ih _ _ _ _ _ _ hrec hnext.1
            refine ⟨by linarith [hinv.2], ?_, hinv₃, by rw [htr, hnext.2.1]⟩
            rw [hntt, hnext.2.2]
            simp
            ring
    · rw [if_neg hg] at hsome
      obtain ⟨hut, hs⟩ : (0 : ℚ × ℚ) = (u, t) ∧ s = s' := by simpa using hsome
      obtain ⟨hr, ht⟩ : (0 : ℚ) = u ∧ (0 : ℚ) = t := by
        constructor <;> [exact congrArg Prod.fst hut; exact congrArg Prod.snd hut]
      subst ht hs
      exact ⟨le_refl 0, by simp, hinv, rfl⟩

/-- `do_minimal_download`: bits and time are non-negative, positive bits take
positive time, the time is added exactly to `network_total_time`, the
invariant is preserved, and with a positive size and positive minimum-progress
size the call downloads a positive number of bits. -/
theorem doMinimalDownload_spec :
    ∀ (fuel : ℕ) (size msp mtp : ℚ) (s : NetState) (b t : ℚ) (s' : NetState),
      doMinimalDownload fuel size msp mtp s = some ((b, t), s') → NetInv s →
      0 ≤ b ∧ 0 ≤ t ∧ s'.network_total_time = s.network_total_time + t ∧ NetInv s' ∧
      s'.trace = s.trace ∧ (0 < b → 0 < t) ∧ (0 < size → 0 < msp → 0 < b) := by
  intro fuel
  induction fuel with
  | zero => intro size msp mtp s b t s' hsome; simp [doMinimalDownload] at hsome
  | succ n ih =>
    intro size msp mtp s b t s' hsome hinv
    rw [doMinimalDownload] at hsome
    by_cases hg : 0 < size ∧ (0 < msp ∨ 0 < mtp)
    · rw [if_pos hg] at hsome
      simp only [] at hsome
      by_cases hbw : 0 < s.period.bandwidth
      · rw [if_pos hbw] at hsome
        by_cases h1 : size ≤ max msp (mtp * s.period.bandwidth) ∧
            size ≤ s.time_to_next * s.period.bandwidth
        · rw [if_pos h1] at hsome
          cases hrec : doMinimalDownload n (size - size) (msp - size)
              (mtp - size / s.period.bandwidth)
              ({ s with
                  time_to_next := s.time_to_next - size / s.period.bandwidth
                  network_total_time :=
                    s.network_total_time + size / s.period.bandwidth }) with
          | none => rw [hrec] at hsome; simp at hsome
          | some v =>
            obtain ⟨⟨b₂, t₂⟩, s₃⟩ := v
            rw [hrec] at hsome
            obtain ⟨⟨hb, ht⟩, hs⟩ : (size + b₂ = b ∧ size / s.period.bandwidth + t₂ = t) ∧
                s₃ = s' := by simpa using hsome
            subst hb ht hs
            have htp : 0 < size / s.period.bandwidth := div_pos hg.1 hbw
            have httn : size / s.period.bandwidth ≤ s.time_to_next := by
              rw [div_le_iff₀ hbw]; linarith [h1.2]
            obtain ⟨hb₂, ht₂, hntt, hinv₃, htr, -, -⟩ := ih _ _ _ _ _ _ _ hrec
              ⟨hinv.1, by simp; linarith⟩
            refine ⟨by linarith, by linarith, ?_, hinv₃, htr,
              fun _ => by linarith, fun _ _ => by linarith⟩
            rw [hntt]
            simp
            ring
        · rw [if_neg h1] at hsome
          by_cases h2 : max msp (mtp * s.period.bandwidth) ≤
              s.time_to_next * s.period.bandwidth
          · rw [if_pos h2] at hsome
            cases hrec : doMinimalDownload n (size - max msp (mtp * s.period.bandwidth))
                (0 - max msp (mtp * s.period.bandwidth))
                (0 - max msp (mtp * s.period.bandwidth) / s.period.bandwidth)
                ({ s with
                    time_to_next := s.time_to_next -
                      max msp (mtp * s.period.bandwidth) / s.period.bandwidth
                    network_total_time := s.network_total_time +
                      max msp (mtp * s.period.bandwidth) / s.period.bandwidth }) with
            | none => rw [hrec] at hsome; simp at hsome
            | some v =>
              obtain ⟨⟨b₂, t₂⟩, s₃⟩ := v
              rw [hrec] at hsome
              obtain ⟨⟨hb, ht⟩, hs⟩ : (max msp (mtp * s.period.bandwidth) + b₂ = b ∧
                  max msp (mtp * s.period.bandwidth) / s.period.bandwidth + t₂ = t) ∧
                  s₃ = s' := by simpa using hsome
              subst hb ht hs
              have hmb : 0 < max msp (mtp * s.period.bandwidth) := by
                rcases hg.2 with h | h
                · exact lt_of_lt_of_le h (le_max_left _ _)
                · exact lt_of_lt_of_le (mul_pos h hbw) (le_max_right _ _)
              have htp : 0 < max msp (mtp * s.period.bandwidth) / s.period.bandwidth :=
                div_pos hmb hbw
              have httn : max msp (mtp * s.period.bandwidth) / s.period.bandwidth ≤
                  s.time_to_next := by
                rw [div_le_iff₀ hbw]; linarith [h2]
              obtain ⟨hb₂, ht₂, hntt, hinv₃, htr, -, -⟩ := ih _ _ _ _ _ _ _ hrec
                ⟨hinv.1, by simp; linarith⟩
              refine ⟨by linarith, by linarith, ?_, hinv₃, htr,
                fun _ => by linarith, fun _ _ => by linarith⟩
              rw [hntt]
              simp
              ring
          · rw [if_neg h2] at hsome
            cases hrec : doMinimalDownload n (size - s.time_to_next * s.period.bandwidth)
                (msp - s.time_to_next * s.period.bandwidth) (mtp - s.time_to_next)
                (nextNetworkPeriod
                  { s with
                      network_total_time := s.network_total_time + s.time_to_next }) with
            | none => rw [hrec] at hsome; simp at hsome
            | some v =>
              obtain ⟨⟨b₂, t₂⟩, s₃⟩ := v
              rw [hrec] at hsome
              obtain ⟨⟨hb, ht⟩, hs⟩ : (s.time_to_next * s.period.bandwidth + b₂ = b ∧
                  s.time_to_next + t₂ = t) ∧ s₃ = s' := by simpa using hsome
              subst hb ht hs
              have hbtn : 0 ≤ s.time_to_next * s.period.bandwidth :=
                mul_nonneg hinv.2 hbw.le
              have hnext := nextNetworkPeriod_spec
                { s with network_total_time := s.network_total_time + s.time_to_next }
                hinv.1
              obtain ⟨hb₂, ht₂, hntt, hinv₃, htr, hbt₂, hszb₂⟩ := ih _ _ _ _ _ _ _ hrec
                hnext.1
              refine ⟨by linarith, by linarith [hinv.2], ?_, hinv₃,
                by rw [htr, hnext.2.1], ?_, ?_⟩
              · rw [hntt, hnext.2.2]
                simp
                ring
              · intro hbpos
                rcases lt_or_eq_of_le hbtn with h | h
                · have : 0 < s.time_to_next := by
                    by_contra hc
                    push_neg at hc
                    have : s.time_to_next * s.period.bandwidth ≤ 0 :=
                      mul_nonpos_of_nonpos_of_nonneg hc hbw.le
                    linarith
                  linarith [ht₂]
                · have hb2pos : 0 < b₂ := by linarith [h]
                  linarith [hbt₂ hb2pos, hinv.2]
              · intro hsz hmsp
                rcases lt_or_eq_of_le hbtn with h | h
                · linarith
                · have : 0 < b₂ := hszb₂ (by linarith) (by linarith)
                  linarith
      · rw [if_neg hbw] at hsome
        by_cases h3 : 0 < msp ∨ s.time_to_next < mtp
        · rw [if_pos h3] at hsome
          cases hrec : doMinimalDownload n size msp (mtp - s.time_to_next)
              (nextNetworkPeriod
                { s with
                    network_total_time := s.network_total_time + s.time_to_next }) with
          | none => rw [hrec] at hsome; simp at hsome
          | some v =>
            obtain ⟨⟨b₂, t₂⟩, s₃⟩ := v
            rw [hrec] at hsome
            obtain ⟨⟨hb, ht⟩, hs⟩ : (b₂ = b ∧ s.time_to_next + t₂ = t) ∧ s₃ = s' := by
              simpa using hsome
            subst hb ht hs
            have hnext := nextNetworkPeriod_spec
              { s with network_total_time := s.network_total_time + s.time_to_next }
              hinv.1
            obtain ⟨hb₂, ht₂, hntt, hinv₃, htr, hbt₂, hszb₂⟩ := ih _ _ _ _ _ _ _ hrec
              hnext.1
            refine ⟨hb₂, by linarith [hinv.2], ?_, hinv₃, by rw [htr, hnext.2.1],
              fun hb => by linarith [hbt₂ hb, hinv.2],
              fun hsz hmsp => hszb₂ hsz hmsp⟩
            rw [hntt, hnext.2.2]
            simp
            ring
        · rw [if_neg h3] at hsome
          push_neg at h3
          have hmtp : 0 < mtp := by
            rcases hg.2 with h | h
            · exact absurd h (not_lt.mpr h3.1)
            · exact h
          cases hrec : doMinimalDownload n size msp (mtp - mtp)
              ({ s with
                  time_to_next := s.time_to_next - mtp
                  network_total_time := s.network_total_time + mtp }) with
          | none => rw [hrec] at hsome; simp at hsome
          | some v =>
            obtain ⟨⟨b₂, t₂⟩, s₃⟩ := v
            rw [hrec] at hsome
            obtain ⟨⟨hb, ht⟩, hs⟩ : (b₂ = b ∧ mtp + t₂ = t) ∧ s₃ = s' := by
              simpa using hsome
            subst hb ht hs
            obtain ⟨hb₂, ht₂, hntt, hinv₃, htr, hbt₂, hszb₂⟩ := ih _ _ _ _ _ _ _ hrec
              ⟨hinv.1, by simp; linarith [h3.2]⟩
            refine ⟨hb₂, by linarith, ?_, hinv₃, htr,
              fun hb => by linarith [hbt₂ hb],
              fun hsz hmsp => hszb₂ hsz hmsp⟩
            rw [hntt]
            simp
            ring
    · rw [if_neg hg] at hsome
      obtain ⟨hbt, hs⟩ : (0 : ℚ × ℚ) = (b, t) ∧ s = s' := by simpa using hsome
      obtain ⟨hb, ht⟩ : (0 : ℚ) = b ∧ (0 : ℚ) = t := by
        constructor <;> [exact congrArg Prod.fst hbt; exact congrArg Prod.snd hbt]
      subst hb ht hs
      refine ⟨le_refl 0, le_refl 0, by simp, hinv, rfl, fun h => absurd h (by norm_num),
        fun hsz hmsp => absurd ⟨hsz, Or.inl hmsp⟩ hg⟩

/-- `NetworkModel.delay(time)`: advances `network_total_time` by exactly
`time` and preserves the invariant. -/
theorem netDelay_spec :
    ∀ (fuel : ℕ) (time : ℚ) (s : NetState) (s' : NetState),
      netDelay fuel time s = some s' → NetInv s → 0 ≤ time →
      s'.network_total_time = s.network_total_time + time ∧ NetInv s' ∧
      s'.trace = s.trace := by
  intro fuel
  induction fuel with
  | zero => intro time s s' hsome; simp [netDelay] at hsome
  | succ n ih =>
    intro time s s' hsome hinv htime
    rw [netDelay] at hsome
    by_cases hlt : s.time_to_next < time
    · rw [if_pos hlt] at hsome
      have hnext := nextNetworkPeriod_spec
        { s with network_total_time := s.network_total_time + s.time_to_next } hinv.1
      obtain ⟨hntt, hinv₃, htr⟩ := ih _ _ _ hsome hnext.1 (by linarith)
      refine ⟨?_, hinv₃, by rw [htr, hnext.2.1]⟩
      rw [hntt, hnext.2.2]
      simp only []
      ring
    · rw [if_neg hlt] at hsome
      obtain hs : _ = s' := by simpa using hsome
      subst hs
      push_neg at hlt
      exact ⟨rfl, ⟨hinv.1, by simp; linarith⟩, rfl⟩

/-- The latency-units step of the progress loop: time only grows, the growth
is billed to `network_total_time`, and with no pending delay units the step is
the identity. -/
theorem downloadStepDelay_spec (fuel : ℕ) (t du mtp : ℚ) (lat : Option ℚ)
    (net : NetState) (t1 du1 mtp1 : ℚ) (lat1 : Option ℚ) (net1 : NetState)
    (hsome : downloadStepDelay fuel t du mtp lat net = some (t1, du1, mtp1, lat1, net1))
    (hinv : NetInv net) :
    t ≤ t1 ∧ net1.network_total_time = net.network_total_time + (t1 - t) ∧
    NetInv net1 ∧ net1.trace = net.trace ∧
    (du ≤ 0 → t1 = t ∧ du1 = du ∧ lat1 = lat ∧ net1 = net) := by
  rw [downloadStepDelay] at hsome
  by_cases hdu : 0 < du
  · rw [if_pos hdu] at hsome
    cases hrec : doMinimalLatencyDelay fuel du mtp net with
    | none => rw [hrec] at hsome; simp at hsome
    | some v =>
      obtain ⟨⟨u₂, t₂⟩, net₂⟩ := v
      rw [hrec] at hsome
      simp only [] at hsome
      obtain ⟨ht1, -, -, -, hnet⟩ :
          t + t₂ = t1 ∧ du - u₂ = du1 ∧ mtp - t₂ = mtp1 ∧ _ = lat1 ∧ net₂ = net1 := by
        simpa using hsome
      subst ht1 hnet
      obtain ⟨ht₂, hntt, hinv₂, htr⟩ := doMinimalLatencyDelay_spec fuel du mtp net
        u₂ t₂ net₂ hrec hinv
      exact ⟨by linarith, by rw [hntt]; ring, hinv₂, htr,
        fun hc => absurd hdu (not_lt.mpr hc)⟩
  · rw [if_neg hdu] at hsome
    obtain ⟨h1, h2, h3, h4, h5⟩ : t = t1 ∧ du = du1 ∧ mtp = mtp1 ∧ lat = lat1 ∧
        net = net1 := by simpa using hsome
    subst h1 h2 h3 h4 h5
    exact ⟨le_refl t, by simp, hinv, rfl, fun _ => ⟨rfl, rfl, rfl, rfl⟩⟩

/-- The data step of the progress loop: size and time only grow, progress in
bits implies progress in time, time growth is billed to `network_total_time`,
and with exhausted delay units, a positive remaining size and a positive
minimum-progress size the step downloads a positive number of bits. -/
theorem downloadStepData_spec (fuel : ℕ) (size t sz du mtp msp : ℚ)
    (net : NetState) (t2 sz2 : ℚ) (net2 : NetState)
    (hsome : downloadStepData fuel size t sz du mtp msp net = some (t2, sz2, net2))
    (hinv : NetInv net) :
    t ≤ t2 ∧ sz ≤ sz2 ∧ net2.network_total_time = net.network_total_time + (t2 - t) ∧
    NetInv net2 ∧ net2.trace = net.trace ∧ (sz < sz2 → t < t2) ∧
    (du ≤ 0 → sz < size → 0 < msp → sz < sz2) := by
  rw [downloadStepData] at hsome
  by_cases hdu : du ≤ 0
  · rw [if_pos hdu] at hsome
    cases hrec : doMinimalDownload fuel (size - sz) msp mtp net with
    | none => rw [hrec] at hsome; simp at hsome
    | some v =>
      obtain ⟨⟨b₂, t₂'⟩, net₂⟩ := v
      rw [hrec] at hsome
      obtain ⟨ht2, hsz2, hnet⟩ : t + t₂' = t2 ∧ sz + b₂ = sz2 ∧ net₂ = net2 := by
        simpa using hsome
      subst ht2 hsz2 hnet
      obtain ⟨hb₂, ht₂, hntt, hinv₂, htr, hbt, hpos⟩ := doMinimalDownload_spec fuel
        (size - sz) msp mtp net b₂ t₂' net₂ hrec hinv
      refine ⟨by linarith, by linarith, by rw [hntt]; ring, hinv₂, htr, ?_, ?_⟩
      · intro h
        have : 0 < b₂ := by linarith
        linarith [hbt this]
      · intro _ hsz hmsp
        linarith [hpos (by linarith) hmsp]
  · rw [if_neg hdu] at hsome
    obtain ⟨h1, h2, h3⟩ : t = t2 ∧ sz = sz2 ∧ net = net2 := by simpa using hsome
    subst h1 h2 h3
    exact ⟨le_refl t, le_refl sz, by simp, hinv, rfl, fun h => absurd rfl (ne_of_lt h),
      fun hdu' => absurd hdu' hdu⟩

/-- Shape of the progress loop's result: the returned `DownloadProgress`
carries the requested index, quality and size, its size/time accumulators only
grow, and the elapsed download time is billed exactly to
`network_total_time`. -/
theorem downloadLoop_shape (f : DownloadProgress → ℚ → Option ℕ)
    (cfg : NetworkConfig) (size : ℚ) (idx : ℤ) (q : ℕ) (bl : ℚ) :
    ∀ (fuel : ℕ) (t sz du mtp msp : ℚ) (lat : Option ℚ) (net : NetState)
      (log : List (DownloadProgress × ℚ)) (dp : DownloadProgress)
      (net' : NetState) (log' : List (DownloadProgress × ℚ)),
      downloadLoop f cfg size idx q bl fuel t sz du mtp msp lat net log =
        some (dp, net', log') →
      NetInv net →
      dp.index = idx ∧ dp.quality = q ∧ dp.size = size ∧
      sz ≤ dp.downloaded ∧ t ≤ dp.time ∧
      net'.network_total_time = net.network_total_time + (dp.time - t) ∧
      NetInv net' ∧ net'.trace = net.trace := by
  intro fuel
  induction fuel with
  | zero =>
    intro t sz du mtp msp lat net log dp net' log' hsome
    simp [downloadLoop] at hsome
  | succ n ih =>
    intro t sz du mtp msp lat net log dp net' log' hsome hinv
    rw [downloadLoop] at hsome
    by_cases hguard : sz < size
    · rw [if_pos hguard] at hsome
      cases hstep1 : downloadStepDelay (n + 1) t du mtp lat net with
      | none => rw [hstep1] at hsome; simp at hsome
      | some v1 =>
        obtain ⟨t1, du1, mtp1, lat1, net1⟩ := v1
        rw [hstep1] at hsome
        simp only [] at hsome
        obtain ⟨ht1, hntt1, hinv1, htr1, -⟩ := downloadStepDelay_spec (n + 1) t du mtp
          lat net t1 du1 mtp1 lat1 net1 hstep1 hinv
        cases hstep2 : downloadStepData (n + 1) size t1 sz du1 mtp1 msp net1 with
        | none => rw [hstep2] at hsome; simp at hsome
        | some v2 =>
          obtain ⟨t2, sz2, net2⟩ := v2
          rw [hstep2] at hsome
          simp only [] at hsome
          obtain ⟨ht2, hsz2, hntt2, hinv2, htr2, -, -⟩ := downloadStepData_spec (n + 1)
            size t1 sz du1 mtp1 msp net1 t2 sz2 net2 hstep2 hinv1
          by_cases hprog : sz2 < size
          · rw [if_pos hprog] at hsome
            cases hf : f ⟨idx, q, size, sz2, t2, lat1, none⟩ (max 0 (bl - t2)) with
            | some aq =>
              rw [hf] at hsome
              obtain ⟨hdp, hnet, -⟩ :
                  (⟨idx, q, size, sz2, t2, lat1, some aq⟩ : DownloadProgress) = dp ∧
                  net2 = net' ∧ _ = log' := by simpa using hsome
              subst hdp hnet
              refine ⟨rfl, rfl, rfl, by simpa using hsz2, by simpa using ht1.trans ht2,
                ?_, hinv2, by rw [htr2, htr1]⟩
              simp only []
              rw [hntt2, hntt1]
              ring
            | none =>
              rw [hf] at hsome
              obtain ⟨hi, hq', hsz', hd, ht, hntt, hinv', htr⟩ := ih t2 sz2 du1
                cfg.min_progress_time cfg.min_progress_size lat1 net2 _ dp net' log'
                hsome hinv2
              refine ⟨hi, hq', hsz', by linarith, by linarith, ?_, hinv',
                by rw [htr, htr2, htr1]⟩
              rw [hntt, hntt2, hntt1]
              ring
          · rw [if_neg hprog] at hsome
            obtain ⟨hdp, hnet, -⟩ :
                (⟨idx, q, size, sz2, t2, lat1, none⟩ : DownloadProgress) = dp ∧
                net2 = net' ∧ log = log' := by simpa using hsome
            subst hdp hnet
            refine ⟨rfl, rfl, rfl, by simpa using hsz2, by simpa using ht1.trans ht2,
              ?_, hinv2, by rw [htr2, htr1]⟩
            simp only []
            rw [hntt2, hntt1]
            ring
    · rw [if_neg hguard] at hsome
      obtain ⟨hdp, hnet, -⟩ :
          (⟨idx, q, size, sz, t, lat, none⟩ : DownloadProgress) = dp ∧
          net = net' ∧ log = log' := by simpa using hsome
      subst hdp hnet
      exact ⟨rfl, rfl, rfl, le_refl sz, le_refl t, by simp, hinv, rfl⟩

/-- Log/abandon characterization of the progress loop: the result is
non-abandoned exactly when every logged `check_abandon` call returned null,
and an abandoned result records the quality returned by a logged call and has
`downloaded < size`. -/
theorem downloadLoop_log (f : DownloadProgress → ℚ → Option ℕ)
    (cfg : NetworkConfig) (size : ℚ) (idx : ℤ) (q : ℕ) (bl : ℚ) :
    ∀ (fuel : ℕ) (t sz du mtp msp : ℚ) (lat : Option ℚ) (net : NetState)
      (log : List (DownloadProgress × ℚ)) (dp : DownloadProgress)
      (net' : NetState) (log' : List (DownloadProgress × ℚ)),
      downloadLoop f cfg size idx q bl fuel t sz du mtp msp lat net log =
        some (dp, net', log') →
      (∀ c ∈ log, f c.1 c.2 = none) →
      ((dp.abandon_to_quality = none ↔ ∀ c ∈ log', f c.1 c.2 = none) ∧
       ∀ q', dp.abandon_to_quality = some q' →
         dp.downloaded < dp.size ∧ ∃ c ∈ log', f c.1 c.2 = some q') := by
  intro fuel
  induction fuel with
  | zero =>
    intro t sz du mtp msp lat net log dp net' log' hsome
    simp [downloadLoop] at hsome
  | succ n ih =>
    intro t sz du mtp msp lat net log dp net' log' hsome hlog
    rw [downloadLoop] at hsome
    by_cases hguard : sz < size
    · rw [if_pos hguard] at hsome
      cases hstep1 : downloadStepDelay (n + 1) t du mtp lat net with
      | none => rw [hstep1] at hsome; simp at hsome
      | some v1 =>
        obtain ⟨t1, du1, mtp1, lat1, net1⟩ := v1
        rw [hstep1] at hsome
        simp only [] at hsome
        cases hstep2 : downloadStepData (n + 1) size t1 sz du1 mtp1 msp net1 with
        | none => rw [hstep2] at hsome; simp at hsome
        | some v2 =>
          obtain ⟨t2, sz2, net2⟩ := v2
          rw [hstep2] at hsome
          simp only [] at hsome
          by_cases hprog : sz2 < size
          · rw [if_pos hprog] at hsome
            cases hf : f ⟨idx, q, size, sz2, t2, lat1, none⟩ (max 0 (bl - t2)) with
            | some aq =>
              rw [hf] at hsome
              obtain ⟨hdp, -, hlog'⟩ :
                  (⟨idx, q, size, sz2, t2, lat1, some aq⟩ : DownloadProgress) = dp ∧
                  net2 = net' ∧
                  log ++ [(⟨idx, q, size, sz2, t2, lat1, none⟩, max 0 (bl - t2))] =
                    log' := by simpa using hsome
              subst hdp
              constructor
              · constructor
                · intro habs; simp at habs
                · intro hall
                  exfalso
                  have := hall (⟨idx, q, size, sz2, t2, lat1, none⟩, max 0 (bl - t2))
                    (by rw [← hlog']; simp)
                  rw [hf] at this
                  simp at this
              · intro q' hq'
                obtain rfl : aq = q' := by simpa using hq'
                refine ⟨by simpa using hprog,
                  ⟨⟨idx, q, size, sz2, t2, lat1, none⟩, max 0 (bl - t2)⟩,
                  by rw [← hlog']; simp, hf⟩
            | none =>
              rw [hf] at hsome
              refine ih t2 sz2 du1 cfg.min_progress_time cfg.min_progress_size lat1
                net2 _ dp net' log' hsome ?_
              intro c hc
              rcases List.mem_append.mp hc with hc | hc
              · exact hlog c hc
              · obtain rfl : c = (⟨idx, q, size, sz2, t2, lat1, none⟩, max 0 (bl - t2)) := by
                  simpa using hc
                exact hf
          · rw [if_neg hprog] at hsome
            obtain ⟨hdp, -, hlog'⟩ :
                (⟨idx, q, size, sz2, t2, lat1, none⟩ : DownloadProgress) = dp ∧
                net2 = net' ∧ log = log' := by simpa using hsome
            subst hdp hlog'
            exact ⟨⟨fun _ => hlog, fun _ => rfl⟩, fun q' hq' => by simp at hq'⟩
    · rw [if_neg hguard] at hsome
      obtain ⟨hdp, -, hlog'⟩ :
          (⟨idx, q, size, sz, t, lat, none⟩ : DownloadProgress) = dp ∧
          net = net' ∧ log = log' := by simpa using hsome
      subst hdp hlog'
      exact ⟨⟨fun _ => hlog, fun _ => rfl⟩, fun q' hq' => by simp at hq'⟩

/-- Time-to-first-bit and download-time lower bounds of the progress loop
when the latency delay has already been charged (`delay_units ≤ 0`): the
returned `time_to_first_bit` is the already-charged latency, any download
progress keeps `time` strictly above it, and an in-progress call (with a
positive minimum-progress size) strictly exceeds it as well. -/
theorem downloadLoop_dltime (f : DownloadProgress → ℚ → Option ℕ)
    (cfg : NetworkConfig) (size : ℚ) (idx : ℤ) (q : ℕ) (bl : ℚ)
    (hcfg : 0 < cfg.min_progress_size) :
    ∀ (fuel : ℕ) (t sz du mtp msp l₀ : ℚ) (net : NetState)
      (log : List (DownloadProgress × ℚ)) (dp : DownloadProgress)
      (net' : NetState) (log' : List (DownloadProgress × ℚ)),
      downloadLoop f cfg size idx q bl fuel t sz du mtp msp (some l₀) net log =
        some (dp, net', log') →
      NetInv net → du ≤ 0 → 0 < msp → l₀ ≤ t → (0 < sz → l₀ < t) →
      dp.time_to_first_bit = some l₀ ∧
      (0 < dp.downloaded → l₀ < dp.time) ∧
      (sz < size → l₀ < dp.time) := by
  intro fuel
  induction fuel with
  | zero =>
    intro t sz du mtp msp l₀ net log dp net' log' hsome
    simp [downloadLoop] at hsome
  | succ n ih =>
    intro t sz du mtp msp l₀ net log dp net' log' hsome hinv hdu hmsp hl₀ hsz₀
    rw [downloadLoop] at hsome
    by_cases hguard : sz < size
    · rw [if_pos hguard] at hsome
      cases hstep1 : downloadStepDelay (n + 1) t du mtp (some l₀) net with
      | none => rw [hstep1] at hsome; simp at hsome
      | some v1 =>
        obtain ⟨t1, du1, mtp1, lat1, net1⟩ := v1
        rw [hstep1] at hsome
        simp only [] at hsome
        obtain ⟨-, -, -, -, hid⟩ := downloadStepDelay_spec (n + 1) t du mtp (some l₀)
          net t1 du1 mtp1 lat1 net1 hstep1 hinv
        obtain ⟨ht1, hdu1, hlat1, hnet1⟩ := hid hdu
        rw [ht1, hdu1, hlat1, hnet1] at hsome
        cases hstep2 : downloadStepData (n + 1) size t sz du mtp1 msp net with
        | none => rw [hstep2] at hsome; simp at hsome
        | some v2 =>
          obtain ⟨t2, sz2, net2⟩ := v2
          rw [hstep2] at hsome
          simp only [] at hsome
          obtain ⟨ht2, hsz2, -, hinv2, -, hszt, hposb⟩ := downloadStepData_spec (n + 1)
            size t sz du mtp1 msp net t2 sz2 net2 hstep2 hinv
          have hprogress : sz < sz2 := hposb hdu hguard hmsp
          have ht2' : l₀ < t2 := lt_of_le_of_lt hl₀ (hszt hprogress)
          by_cases hprog : sz2 < size
          · rw [if_pos hprog] at hsome
            cases hf : f ⟨idx, q, size, sz2, t2, some l₀, none⟩ (max 0 (bl - t2)) with
            | some aq =>
              rw [hf] at hsome
              obtain ⟨hdp, -, -⟩ :
                  (⟨idx, q, size, sz2, t2, some l₀, some aq⟩ : DownloadProgress) = dp ∧
                  net2 = net' ∧ _ = log' := by simpa using hsome
              subst hdp
              exact ⟨rfl, fun _ => ht2', fun _ => ht2'⟩
            | none =>
              rw [hf] at hsome
              obtain ⟨httfb, hdl, -⟩ := ih t2 sz2 du cfg.min_progress_time
                cfg.min_progress_size l₀ net2 _ dp net' log' hsome hinv2 hdu hcfg
                ht2'.le (fun _ => ht2')
              obtain ⟨-, -, -, -, htime, -, -, -⟩ := downloadLoop_shape f cfg size idx
                q bl n t2 sz2 du cfg.min_progress_time cfg.min_progress_size (some l₀)
                net2 _ dp net' log' hsome hinv2
              exact ⟨httfb, hdl, fun _ => lt_of_lt_of_le ht2' htime⟩
          · rw [if_neg hprog] at hsome
            obtain ⟨hdp, -, -⟩ :
                (⟨idx, q, size, sz2, t2, some l₀, none⟩ : DownloadProgress) = dp ∧
                net2 = net' ∧ log = log' := by simpa using hsome
            subst hdp
            exact ⟨rfl, fun _ => ht2', fun _ => ht2'⟩
    · rw [if_neg hguard] at hsome
      obtain ⟨hdp, -, -⟩ :
          (⟨idx, q, size, sz, t, some l₀, none⟩ : DownloadProgress) = dp ∧
          net = net' ∧ log = log' := by simpa using hsome
      subst hdp
      exact ⟨rfl, fun h => hsz₀ h, fun h => absurd h hguard⟩

/-- Claim C3: for every `NetworkModel.download` call with a `check_abandon`
callback, the returned `DownloadProgress` is abandoned exactly when some
checkpoint's `check_abandon` invocation (all of which are recorded in the
log) returned a non-null quality: in that case `abandon_to_quality` is that
quality, `downloaded < size`, and the session loop's throughput-sample step
(`process_download_loop` lines 534-535) leaves the throughput history
untouched; when every checkpoint returned null, `abandon_to_quality` is
null. -/
theorem download_abandonment {H : Type} (push : H → ℚ → ℚ → ℚ → H) (hist : H)
    (fuel : ℕ) (cfg : NetworkConfig) (f : DownloadProgress → ℚ → Option ℕ)
    (size : ℚ) (idx : ℤ) (q : ℕ) (bl : ℚ) (net : NetState)
    (dp : DownloadProgress) (net' : NetState) (log : List (DownloadProgress × ℚ))
    (hsome : download fuel cfg (some f) size idx q bl net = some (dp, net', log)) :
    (dp.abandon_to_quality = none ↔ ∀ c ∈ log, f c.1 c.2 = none) ∧
    (∀ q', dp.abandon_to_quality = some q' →
      dp.downloaded < dp.size ∧ ∃ c ∈ log, f c.1 c.2 = some q') ∧
    (dp.abandon_to_quality ≠ none → throughputSampleStep push dp hist = hist) := by
  have hstep : dp.abandon_to_quality ≠ none →
      throughputSampleStep push dp hist = hist := by
    intro hne
    cases habs : dp.abandon_to_quality with
    | none => exact absurd habs hne
    | some aq => simp [throughputSampleStep, habs]
  rw [download] at hsome
  by_cases hsz : size ≤ 0
  · rw [if_pos hsz] at hsome
    obtain ⟨hdp, -, hlog⟩ :
        (⟨idx, q, 0, 0, 0, some 0, none⟩ : DownloadProgress) = dp ∧ net = net' ∧
        ([] : List (DownloadProgress × ℚ)) = log := by simpa using hsome
    subst hdp hlog
    exact ⟨⟨fun _ c hc => absurd hc (by simp), fun _ => rfl⟩,
      fun q' hq' => by simp at hq', hstep⟩
  · rw [if_neg hsz] at hsome
    simp only [] at hsome
    by_cases hcfg : cfg.min_progress_time ≤ 0 ∧ cfg.min_progress_size ≤ 0
    · rw [if_pos hcfg] at hsome
      cases h1 : doLatencyDelay fuel 1 net with
      | none => rw [h1] at hsome; simp at hsome
      | some v1 =>
        obtain ⟨lat, net₁⟩ := v1
        rw [h1] at hsome
        simp only [] at hsome
        cases h2 : doDownload fuel size net₁ with
        | none => rw [h2] at hsome; simp at hsome
        | some v2 =>
          obtain ⟨t, net₂⟩ := v2
          rw [h2] at hsome
          obtain ⟨hdp, -, hlog⟩ :
              (⟨idx, q, size, size, lat + t, some lat, none⟩ : DownloadProgress) = dp ∧
              net₂ = net' ∧ ([] : List (DownloadProgress × ℚ)) = log := by
            simpa using hsome
          subst hdp hlog
          exact ⟨⟨fun _ c hc => absurd hc (by simp), fun _ => rfl⟩,
            fun q' hq' => by simp at hq', hstep⟩
    · rw [if_neg hcfg] at hsome
      by_cases hmps : 0 < cfg.min_progress_size
      · rw [if_pos hmps] at hsome
        cases h1 : doLatencyDelay fuel 1 net with
        | none => rw [h1] at hsome; simp at hsome
        | some v1 =>
          obtain ⟨lat, net₁⟩ := v1
          rw [h1] at hsome
          simp only [] at hsome
          obtain ⟨hiff, habd⟩ := downloadLoop_log f cfg size idx q bl fuel lat 0 0
            (cfg.min_progress_time - lat) cfg.min_progress_size (some lat) net₁ []
            dp net' log hsome (fun c hc => absurd hc (by simp))
          exact ⟨hiff, habd, hstep⟩
      · rw [if_neg hmps] at hsome
        obtain ⟨hiff, habd⟩ := downloadLoop_log f cfg size idx q bl fuel 0 0 1
          cfg.min_progress_time cfg.min_progress_size none net [] dp net' log hsome
          (fun c hc => absurd hc (by simp))
        exact ⟨hiff, habd, hstep⟩

/-- Witness for claim C3 at a concrete input: a 10^6-bit download over a
2 bits/ms, 100 ms-latency period with a callback that abandons to quality 0
at the first checkpoint. -/
theorem download_abandonment_witness :
    ∃ dp net' log,
      download 3 defaultNetworkConfig
        (some (fun dp _ => if 0 < dp.downloaded then some 0 else none))
        30000 0 2 0 ⟨[⟨1000, 200, 100⟩], 0, 1000, 0⟩ = some (dp, net', log) ∧
      dp.abandon_to_quality = some 0 ∧ dp.downloaded < dp.size ∧
      throughputSampleStep (fun (h : List (ℚ × ℚ × ℚ)) dt tp lt =>
        (dt, tp, lt) :: h) dp [] = [] := by
  have hrun : download 3 defaultNetworkConfig
      (some (fun dp _ => if 0 < dp.downloaded then some 0 else none))
      30000 0 2 0 ⟨[⟨1000, 200, 100⟩], 0, 1000, 0⟩ =
      some (⟨0, 2, 30000, 12000, 160, some 100, some 0⟩,
        ⟨[⟨1000, 200, 100⟩], 0, 840, 160⟩,
        [(⟨0, 2, 30000, 12000, 160, some 100, none⟩, 0)]) := by
    norm_num [download, defaultNetworkConfig, doLatencyDelay, doDownload,
      downloadLoop, downloadStepDelay, downloadStepData, doMinimalLatencyDelay,
      doMinimalDownload, nextNetworkPeriod, NetState.period]
  refine ⟨_, _, _, hrun, ?_⟩
  have h := download_abandonment (fun (h : List (ℚ × ℚ × ℚ)) dt tp lt =>
    (dt, tp, lt) :: h) [] 3 defaultNetworkConfig
    (fun dp _ => if 0 < dp.downloaded then some 0 else none)
    30000 0 2 0 ⟨[⟨1000, 200, 100⟩], 0, 1000, 0⟩ _ _ _ hrun
  refine ⟨rfl, ?_, h.2.2 (by simp)⟩
  exact (h.2.1 0 rfl).1

/-- On a single-period trace `[⟨d, b, l⟩]`, `do_latency_delay(u)` charges
exactly `u · l` ms (crossing period boundaries as needed). -/
theorem doLatencyDelay_const (d b l : ℚ) :
    ∀ (fuel : ℕ) (u : ℚ) (s : NetState) (r : ℚ) (s' : NetState),
      doLatencyDelay fuel u s = some (r, s') →
      s.trace = [⟨d, b, l⟩] → s.index = 0 → 0 ≤ l → 0 ≤ d → 0 ≤ s.time_to_next →
      0 ≤ u →
      r = u * l ∧ s'.trace = s.trace ∧ s'.index = 0 ∧ 0 ≤ s'.time_to_next := by
  intro fuel
  induction fuel with
  | zero => intro u s r s' hsome; simp [doLatencyDelay] at hsome
  | succ n ih =>
    intro u s r s' hsome htr hidx hl hd httn hu
    have hper : s.period = ⟨d, b, l⟩ := by
      rw [NetState.period, hidx, htr]
      rfl
    rw [doLatencyDelay, hper] at hsome
    by_cases hdu : 0 < u
    · rw [if_pos hdu] at hsome
      simp only [] at hsome
      by_cases hfit : u * l ≤ s.time_to_next
      · rw [if_pos hfit] at hsome
        obtain ⟨hr, hs⟩ : u * l = r ∧ _ = s' := by simpa using hsome
        subst hr hs
        exact ⟨rfl, rfl, hidx, by simp; linarith⟩
      · rw [if_neg hfit] at hsome
        have hl' : 0 < l := by
          rcases lt_or_eq_of_le hl with h | h
          · exact h
          · exfalso; rw [← h] at hfit; simp at hfit; linarith
        cases hrec : doLatencyDelay n (u - s.time_to_next / l)
            (nextNetworkPeriod
              { s with network_total_time := s.network_total_time + s.time_to_next }) with
        | none => rw [hrec] at hsome; simp at hsome
        | some v =>
          obtain ⟨r₂, s₃⟩ := v
          rw [hrec] at hsome
          obtain ⟨hr, hs⟩ : s.time_to_next + r₂ = r ∧ s₃ = s' := by simpa using hsome
          subst hr hs
          have hnext_tr : (nextNetworkPeriod
              { s with network_total_time := s.network_total_time + s.time_to_next }).trace
              = s.trace := rfl
          have hnext_idx : (nextNetworkPeriod
              { s with network_total_time := s.network_total_time + s.time_to_next }).index
              = 0 := by
            simp [nextNetworkPeriod, hidx, htr]
          have hnext_ttn : (nextNetworkPeriod
              { s with network_total_time := s.network_total_time + s.time_to_next
                }).time_to_next = d := by
            simp [nextNetworkPeriod, hidx, htr]
          have hu' : 0 ≤ u - s.time_to_next / l := by
            rw [sub_nonneg, div_le_iff₀ hl']
            push_neg at hfit
            linarith [hfit.le]
          obtain ⟨hr₂, htr₂, hidx₂, httn₂⟩ := ih _ _ _ _ hrec
            (by rw [hnext_tr, htr]) hnext_idx hl hd (by rw [hnext_ttn]; exact hd) hu'
          refine ⟨?_, by rw [htr₂, hnext_tr], hidx₂, httn₂⟩
          rw [hr₂, sub_mul, div_mul_cancel₀ _ (ne_of_gt hl')]
          ring
    · rw [if_neg hdu] at hsome
      obtain ⟨hr, hs⟩ : (0 : ℚ) = r ∧ s = s' := by simpa using hsome
      subst hr hs
      have : u = 0 := le_antisymm (not_lt.mp hdu) hu
      rw [this]
      exact ⟨by ring, rfl, hidx, httn⟩

/-- On a single-period trace `[⟨d, b, l⟩]` with `b > 0`, `do_download(size)`
takes exactly `size / b` ms. -/
theorem doDownload_const (d b l : ℚ) :
    ∀ (fuel : ℕ) (size : ℚ) (s : NetState) (r : ℚ) (s' : NetState),
      doDownload fuel size s = some (r, s') →
      s.trace = [⟨d, b, l⟩] → s.index = 0 → 0 < b → 0 ≤ d → 0 ≤ s.time_to_next →
      0 ≤ size →
      r = size / b := by
  intro fuel
  induction fuel with
  | zero => intro size s r s' hsome; simp [doDownload] at hsome
  | succ n ih =>
    intro size s r s' hsome htr hidx hb hd httn hsz
    have hper : s.period = ⟨d, b, l⟩ := by
      rw [NetState.period, hidx, htr]
      rfl
    rw [doDownload, hper] at hsome
    by_cases hpos : 0 < size
    · rw [if_pos hpos] at hsome
      simp only [] at hsome
      by_cases hfit : size ≤ s.time_to_next * b
      · rw [if_pos hfit] at hsome
        obtain ⟨hr, -⟩ : size / b = r ∧ _ = s' := by simpa using hsome
        exact hr.symm
      · rw [if_neg hfit] at hsome
        cases hrec : doDownload n (size - s.time_to_next * b)
            (nextNetworkPeriod
              { s with network_total_time := s.network_total_time + s.time_to_next }) with
        | none => rw [hrec] at hsome; simp at hsome
        | some v =>
          obtain ⟨r₂, s₃⟩ := v
          rw [hrec] at hsome
          obtain ⟨hr, -⟩ : s.time_to_next + r₂ = r ∧ s₃ = s' := by simpa using hsome
          subst hr
          have hnext_idx : (nextNetworkPeriod
              { s with network_total_time := s.network_total_time + s.time_to_next }).index
              = 0 := by
            simp [nextNetworkPeriod, hidx, htr]
          have hnext_ttn : (nextNetworkPeriod
              { s with network_total_time := s.network_total_time + s.time_to_next
                }).time_to_next = d := by
            simp [nextNetworkPeriod, hidx, htr]
          have hr₂ := ih _ _ _ _ hrec (by rw [htr]; rfl) hnext_idx hb hd
            (by rw [hnext_ttn]; exact hd) (by push_neg at hfit; linarith [hfit.le])
          rw [hr₂, sub_div, mul_div_assoc, div_self (ne_of_gt hb)]
          ring
    · rw [if_neg hpos] at hsome
      obtain ⟨hr, -⟩ : (0 : ℚ) = r ∧ s = s' := by simpa using hsome
      have : size = 0 := le_antisymm (not_lt.mp hpos) hsz
      rw [← hr, this]
      simp

/-- Claim C7: on a single-period cyclic trace with bandwidth `b > 0` and latency
`l ≥ 0`, `NetworkModel.download` without a `check_abandon` callback downloads
`s > 0` bits in exactly `s/b + l` ms, with `time_to_first_bit = l`,
`downloaded = size = s`, a null `abandon_to_quality`, and no `check_abandon`
invocation. -/
theorem download_const_trace (fuel : ℕ) (cfg : NetworkConfig) (d b l s : ℚ)
    (idx : ℤ) (q : ℕ) (bl : ℚ) (net : NetState) (dp : DownloadProgress)
    (net' : NetState) (log : List (DownloadProgress × ℚ))
    (htr : net.trace = [⟨d, b, l⟩]) (hidx : net.index = 0) (hb : 0 < b)
    (hl : 0 ≤ l) (hd : 0 ≤ d) (httn : 0 ≤ net.time_to_next) (hs : 0 < s)
    (hsome : download fuel cfg none s idx q bl net = some (dp, net', log)) :
    dp.time = s / b + l ∧ dp.time_to_first_bit = some l ∧ dp.downloaded = s ∧
    dp.size = s ∧ dp.abandon_to_quality = none ∧ log = [] := by
  rw [download] at hsome
  rw [if_neg (not_le.mpr hs)] at hsome
  simp only [] at hsome
  cases h1 : doLatencyDelay fuel 1 net with
  | none => rw [h1] at hsome; simp at hsome
  | some v1 =>
    obtain ⟨lat, net₁⟩ := v1
    rw [h1] at hsome
    simp only [] at hsome
    obtain ⟨hlat, htr₁, hidx₁, httn₁⟩ := doLatencyDelay_const d b l fuel 1 net lat net₁
      h1 htr hidx hl hd httn (by norm_num)
    cases h2 : doDownload fuel s net₁ with
    | none => rw [h2] at hsome; simp at hsome
    | some v2 =>
      obtain ⟨t, net₂⟩ := v2
      rw [h2] at hsome
      obtain ⟨hdp, -, hlog⟩ :
          (⟨idx, q, s, s, lat + t, some lat, none⟩ : DownloadProgress) = dp ∧
          net₂ = net' ∧ ([] : List (DownloadProgress × ℚ)) = log := by
        simpa using hsome
      subst hdp hlog
      have ht := doDownload_const d b l fuel s net₁ t net₂ h2 (by rw [htr₁, htr])
        hidx₁ hb hd httn₁ hs.le
      have hlat' : lat = l := by rw [hlat]; ring
      refine ⟨?_, ?_, rfl, rfl, rfl, rfl⟩
      · show lat + t = s / b + l
        rw [hlat', ht]
        ring
      · show (some lat : Option ℚ) = some l
        rw [hlat']

/-- Witness for claim C7: 500 bits over a `(1000 ms, 2 bits/ms, 100 ms)` period
take `500/2 + 100 = 350` ms. -/
theorem download_const_trace_witness :
    download 5 defaultNetworkConfig none 500 0 0 0 ⟨[⟨1000, 2, 100⟩], 0, 1000, 0⟩ =
      some (⟨0, 0, 500, 500, 350, some 100, none⟩,
        ⟨[⟨1000, 2, 100⟩], 0, 650, 350⟩, []) ∧
    (350 : ℚ) = 500 / 2 + 100 := by
  have hrun : download 5 defaultNetworkConfig none 500 0 0 0
      ⟨[⟨1000, 2, 100⟩], 0, 1000, 0⟩ =
      some (⟨0, 0, 500, 500, 350, some 100, none⟩,
        ⟨[⟨1000, 2, 100⟩], 0, 650, 350⟩, []) := by
    norm_num [download, defaultNetworkConfig, doLatencyDelay, doDownload,
      nextNetworkPeriod, NetState.period]
  have h := download_const_trace 5 defaultNetworkConfig 1000 2 100 500 0 0 0
    ⟨[⟨1000, 2, 100⟩], 0, 1000, 0⟩ ⟨0, 0, 500, 500, 350, some 100, none⟩
    ⟨[⟨1000, 2, 100⟩], 0, 650, 350⟩ [] rfl rfl (by norm_num) (by norm_num)
    (by norm_num) (by norm_num) (by norm_num) hrun
  exact ⟨hrun, by rw [← h.1]⟩

/-- Claim C8: with the source's positive `min_progress_size` configuration (the
hard-coded 12000 bits) and a well-formed trace, every `DownloadProgress`
returned by `NetworkModel.download` satisfies: if any bits were delivered then
`time − time_to_first_bit > 0` (so the session loop's throughput computation
`downloaded / (time − time_to_first_bit)` never divides by zero for a download
that delivered bits), and a zero-time result occurs only for the zero-size
early return (with `size = downloaded = 0`). -/
theorem download_positive_progress (fuel : ℕ) (cfg : NetworkConfig)
    (check_abandon : Option (DownloadProgress → ℚ → Option ℕ)) (size : ℚ)
    (idx : ℤ) (q : ℕ) (bl : ℚ) (net : NetState) (dp : DownloadProgress)
    (net' : NetState) (log : List (DownloadProgress × ℚ))
    (hsome : download fuel cfg check_abandon size idx q bl net = some (dp, net', log))
    (hinv : NetInv net) (hcfg : 0 < cfg.min_progress_size) :
    (0 < dp.downloaded →
      ∃ l₀, dp.time_to_first_bit = some l₀ ∧ 0 ≤ l₀ ∧ 0 < dp.time - l₀) ∧
    (dp.time = 0 → dp.size = 0 ∧ dp.downloaded = 0) := by
  rw [download] at hsome
  by_cases hsz : size ≤ 0
  · rw [if_pos hsz] at hsome
    obtain ⟨hdp, -, -⟩ :
        (⟨idx, q, 0, 0, 0, some 0, none⟩ : DownloadProgress) = dp ∧ net = net' ∧
        ([] : List (DownloadProgress × ℚ)) = log := by simpa using hsome
    subst hdp
    exact ⟨fun h => absurd h (by norm_num), fun _ => ⟨rfl, rfl⟩⟩
  · rw [if_neg hsz] at hsome
    push_neg at hsz
    simp only [] at hsome
    have hsimple : ∀ hsome' : (match doLatencyDelay fuel 1 net with
        | none => none
        | some (latency, net₁) =>
          match doDownload fuel size net₁ with
          | none => none
          | some (t, net₂) =>
            some ((⟨idx, q, size, size, latency + t, some latency, none⟩ :
              DownloadProgress), net₂, ([] : List (DownloadProgress × ℚ)))) =
          some (dp, net', log),
        (0 < dp.downloaded →
          ∃ l₀, dp.time_to_first_bit = some l₀ ∧ 0 ≤ l₀ ∧ 0 < dp.time - l₀) ∧
        (dp.time = 0 → dp.size = 0 ∧ dp.downloaded = 0) := by
      intro hsome'
      cases h1 : doLatencyDelay fuel 1 net with
      | none => rw [h1] at hsome'; simp at hsome'
      | some v1 =>
        obtain ⟨lat, net₁⟩ := v1
        rw [h1] at hsome'
        simp only [] at hsome'
        cases h2 : doDownload fuel size net₁ with
        | none => rw [h2] at hsome'; simp at hsome'
        | some v2 =>
          obtain ⟨t, net₂⟩ := v2
          rw [h2] at hsome'
          obtain ⟨hdp, -, -⟩ :
              (⟨idx, q, size, size, lat + t, some lat, none⟩ : DownloadProgress) = dp ∧
              net₂ = net' ∧ ([] : List (DownloadProgress × ℚ)) = log := by
            simpa using hsome'
          subst hdp
          obtain ⟨hlat, -, hinv₁, -⟩ := doLatencyDelay_spec fuel 1 net lat net₁ h1 hinv
          obtain ⟨-, -, -, -, hpos⟩ := doDownload_spec fuel size net₁ t net₂ h2 hinv₁
          have ht : 0 < t := hpos hsz
          exact ⟨fun _ => ⟨lat, rfl, hlat, by show 0 < lat + t - lat; linarith⟩,
            fun h0 => by exfalso; simp only [] at h0; linarith⟩
    cases check_abandon with
    | none =>
      simp only [] at hsome
      exact hsimple hsome
    | some f =>
      simp only [] at hsome
      by_cases hc : cfg.min_progress_time ≤ 0 ∧ cfg.min_progress_size ≤ 0
      · exact absurd hc.2 (not_le.mpr hcfg)
      · rw [if_neg hc, if_pos hcfg] at hsome
        cases h1 : doLatencyDelay fuel 1 net with
        | none => rw [h1] at hsome; simp at hsome
        | some v1 =>
          obtain ⟨lat, net₁⟩ := v1
          rw [h1] at hsome
          simp only [] at hsome
          obtain ⟨hlat, -, hinv₁, -⟩ := doLatencyDelay_spec fuel 1 net lat net₁ h1 hinv
          obtain ⟨httfb, hdl, hip⟩ := downloadLoop_dltime f cfg size idx q bl hcfg
            fuel lat 0 0 (cfg.min_progress_time - lat) cfg.min_progress_size lat net₁
            [] dp net' log hsome hinv₁ (le_refl 0) hcfg (le_refl lat)
            (fun h => absurd h (lt_irrefl 0))
          refine ⟨fun h => ⟨lat, httfb, hlat, by linarith [hdl h]⟩, fun h0 => ?_⟩
          exfalso
          have := hip hsz
          linarith

/-- Witness for claim C8 at the abandonment witness input: 12000 bits were
delivered, `time − ttfb = 60 > 0`, and the download time is non-zero. -/
theorem download_positive_progress_witness :
    ∃ l₀, (⟨0, 2, 30000, 12000, 160, some 100, some 0⟩ :
        DownloadProgress).time_to_first_bit = some l₀ ∧ 0 ≤ l₀ ∧
      0 < (⟨0, 2, 30000, 12000, 160, some 100, some 0⟩ :
        DownloadProgress).time - l₀ := by
  have hrun : download 3 defaultNetworkConfig
      (some (fun dp _ => if 0 < dp.downloaded then some 0 else none))
      30000 0 2 0 ⟨[⟨1000, 200, 100⟩], 0, 1000, 0⟩ =
      some (⟨0, 2, 30000, 12000, 160, some 100, some 0⟩,
        ⟨[⟨1000, 200, 100⟩], 0, 840, 160⟩,
        [(⟨0, 2, 30000, 12000, 160, some 100, none⟩, 0)]) := by
    norm_num [download, defaultNetworkConfig, doLatencyDelay, doDownload,
      downloadLoop, downloadStepDelay, downloadStepData, doMinimalLatencyDelay,
      doMinimalDownload, nextNetworkPeriod, NetState.period]
  have h := download_positive_progress 3 defaultNetworkConfig
    (some (fun dp _ => if 0 < dp.downloaded then some 0 else none))
    30000 0 2 0 ⟨[⟨1000, 200, 100⟩], 0, 1000, 0⟩ _ _ _ hrun
    ⟨fun p hp => by simp [List.mem_singleton] at hp; rw [hp]; norm_num, by norm_num⟩
    (by norm_num [defaultNetworkConfig])
  exact h.1 (by norm_num)

/-- `interrupted_by_seek` never moves the play clock backwards. -/
theorem interruptedBySeek_tpt_mono (delta : ℚ) (s : Sim) (hd : 0 ≤ delta) :
    s.total_play_time ≤ (interruptedBySeek delta s).2.total_play_time := by
  cases heq : s.seek_events with
  | nil =>
    rw [interruptedBySeek_nil delta s heq]
    show s.total_play_time ≤ s.total_play_time + delta
    linarith
  | cons e rest =>
    by_cases hg : s.total_play_time < e.seek_when * 1000 ∧
        e.seek_when * 1000 ≤ s.total_play_time + delta
    · rw [interruptedBySeek_hit delta s e rest heq hg]
      show s.total_play_time ≤ e.seek_when * 1000
      exact hg.1.le
    · rw [interruptedBySeek_miss delta s e rest heq hg]
      show s.total_play_time ≤ s.total_play_time + delta
      linarith

/-- `interrupted_by_seek` leaves the manifest untouched. -/
theorem interruptedBySeek_manifest (delta : ℚ) (s : Sim) :
    (interruptedBySeek delta s).2.manifest = s.manifest := by
  cases heq : s.seek_events with
  | nil => rw [interruptedBySeek_nil delta s heq]
  | cons e rest =>
    by_cases hg : s.total_play_time < e.seek_when * 1000 ∧
        e.seek_when * 1000 ≤ s.total_play_time + delta
    · rw [interruptedBySeek_hit delta s e rest heq hg]
      rfl
    · rw [interruptedBySeek_miss delta s e rest heq hg]

/-- The per-segment metric accounting touches neither the clocks nor the
buffer, the manifest or the seek queue. -/
theorem depleteMetrics_preserves (q : ℕ) (s : Sim) :
    (depleteMetrics q s).total_play_time = s.total_play_time ∧
    (depleteMetrics q s).manifest = s.manifest ∧
    (depleteMetrics q s).buffer_contents = s.buffer_contents ∧
    (depleteMetrics q s).buffer_fcc = s.buffer_fcc ∧
    (depleteMetrics q s).seek_events = s.seek_events := by
  cases hlp : s.last_played <;> cases hrt : s.rampup_time <;>
    simp only [depleteMetrics, hlp, hrt] <;> repeat' split <;> simp
  all_goals exact ⟨trivial, trivial, trivial, trivial, trivial⟩

/-- `process_quality_up` touches neither clock. -/
theorem processQualityUp_tpt (now : ℚ) (s : Sim) :
    (processQualityUp now s).total_play_time = s.total_play_time := rfl

/-- Pair-form of `interruptedBySeek_tpt_mono`, convenient after `split`. -/
theorem interruptedBySeek_pair_mono {delta : ℚ} {X : Sim} {bI : Bool} {sI : Sim}
    (heq : interruptedBySeek delta X = (bI, sI)) (hd : 0 ≤ delta) :
    X.total_play_time ≤ sI.total_play_time := by
  have h := interruptedBySeek_tpt_mono delta X hd
  rw [heq] at h
  exact h

/-- Pair-form of `interruptedBySeek_manifest`. -/
theorem interruptedBySeek_pair_manifest {delta : ℚ} {X : Sim} {bI : Bool} {sI : Sim}
    (heq : interruptedBySeek delta X = (bI, sI)) :
    sI.manifest = X.manifest := by
  have h := interruptedBySeek_manifest delta X
  rw [heq] at h
  exact h

/-- The depletion loop never moves the play clock backwards. -/
theorem depleteLoop_tpt_mono :
    ∀ (fuel : ℕ) (time : ℚ) (s : Sim) (b : Bool) (s' : Sim),
      depleteLoop fuel time s = some (b, s') → 0 ≤ time →
      0 ≤ s.manifest.segment_time →
      s.total_play_time ≤ s'.total_play_time := by
  intro fuel
  induction fuel with
  | zero => intro time s b s' hsome; simp [depleteLoop] at hsome
  | succ n ih =>
    intro time s b s' hsome htime hseg
    have hm := depleteMetrics_preserves (s.buffer_contents.headD (0, 0)).2 s
    rw [depleteLoop] at hsome
    split at hsome
    · simp only [] at hsome
      split at hsome
      · rename_i hfull
        split at hsome
        · rename_i sI heq
          obtain ⟨-, hs⟩ : (false = b) ∧ sI = s' := by simpa using hsome
          rw [← hs]
          have h1 := interruptedBySeek_pair_mono heq (by rw [hm.2.1]; exact hseg)
          simp only [] at h1
          rw [hm.1] at h1
          exact h1
        · rename_i sI heq
          have h1 := interruptedBySeek_pair_mono heq (by rw [hm.2.1]; exact hseg)
          simp only [] at h1
          rw [hm.1] at h1
          have h2 := interruptedBySeek_pair_manifest heq
          simp only [] at h2
          rw [hm.2.1] at h2
          have hIseg : 0 ≤ sI.manifest.segment_time := by rw [h2]; exact hseg
          rw [hm.2.1] at hfull hsome
          have := ih (time - s.manifest.segment_time) sI b s' hsome
            (by linarith) hIseg
          linarith
      · rename_i hfull
        split at hsome
        · rename_i sI heq
          obtain ⟨-, hs⟩ : (false = b) ∧ sI = s' := by simpa using hsome
          rw [← hs]
          have h1 := interruptedBySeek_pair_mono heq htime
          simp only [] at h1
          rw [hm.1] at h1
          exact h1
        · rename_i sI heq
          have h1 := interruptedBySeek_pair_mono heq htime
          simp only [] at h1
          rw [hm.1] at h1
          have h2 := interruptedBySeek_pair_manifest heq
          simp only [] at h2
          rw [hm.2.1] at h2
          have hIseg : 0 ≤ sI.manifest.segment_time := by rw [h2]; exact hseg
          have := ih 0 sI b s' hsome (le_refl 0) hIseg
          linarith
    · split at hsome
      · simp only [] at hsome
        split at hsome
        · rename_i sI heq
          obtain ⟨-, hs⟩ : (false = b) ∧ sI = s' := by simpa using hsome
          rw [← hs]
          have h1 := interruptedBySeek_pair_mono heq htime
          simpa using h1
        · rename_i sI heq
          obtain ⟨-, hs⟩ : (true = b) ∧ _ = s' := by simpa using hsome
          have h1 := interruptedBySeek_pair_mono heq htime
          rw [← hs, processQualityUp_tpt]
          simpa using h1
      · obtain ⟨-, hs⟩ : (true = b) ∧ _ = s' := by simpa using hsome
        rw [← hs, processQualityUp_tpt]

/-- `deplete_buffer` never moves the play clock backwards (given the
`buffer_fcc ∈ [0, segment_time]` invariant). -/
theorem depleteBuffer_tpt_mono (time : ℚ) (s : Sim) (b : Bool) (s' : Sim)
    (hsome : depleteBuffer time s = some (b, s')) (htime : 0 ≤ time)
    (hfcc0 : 0 ≤ s.buffer_fcc) (hfccs : s.buffer_fcc ≤ s.manifest.segment_time) :
    s.total_play_time ≤ s'.total_play_time := by
  have hseg : 0 ≤ s.manifest.segment_time := le_trans hfcc0 hfccs
  rw [depleteBuffer] at hsome
  by_cases hempty : s.buffer_contents = []
  · rw [if_pos hempty] at hsome
    rcases hI : interruptedBySeek time
        { s with rebuffer_time := s.rebuffer_time + time } with ⟨bI, sI⟩
    rw [hI] at hsome
    have hIm := interruptedBySeek_tpt_mono time
      { s with rebuffer_time := s.rebuffer_time + time } htime
    rw [hI] at hIm
    cases bI with
    | true =>
      obtain ⟨-, hs⟩ : (false = b) ∧ sI = s' := by simpa using hsome
      subst hs
      exact hIm
    | false =>
      obtain ⟨-, hs⟩ : (true = b) ∧ _ = s' := by simpa using hsome
      rw [← hs]
      exact hIm
  · rw [if_neg hempty] at hsome
    by_cases hfcc : 0 < s.buffer_fcc
    · rw [if_pos hfcc] at hsome
      by_cases hfrac : time + s.buffer_fcc < s.manifest.segment_time
      · rw [if_pos hfrac] at hsome
        rcases hI : interruptedBySeek time
            { s with buffer_fcc := s.buffer_fcc + time } with ⟨bI, sI⟩
        rw [hI] at hsome
        have hIm := interruptedBySeek_tpt_mono time
          { s with buffer_fcc := s.buffer_fcc + time } htime
        rw [hI] at hIm
        cases bI with
        | true =>
          obtain ⟨-, hs⟩ : (false = b) ∧ sI = s' := by simpa using hsome
          subst hs
          exact hIm
        | false =>
          obtain ⟨-, hs⟩ : (true = b) ∧ sI = s' := by simpa using hsome
          subst hs
          exact hIm
      · rw [if_neg hfrac] at hsome
        rcases hI : interruptedBySeek (s.manifest.segment_time - s.buffer_fcc) s
            with ⟨bI, sI⟩
        rw [hI] at hsome
        have hIm := interruptedBySeek_tpt_mono
          (s.manifest.segment_time - s.buffer_fcc) s (by linarith)
        rw [hI] at hIm
        have hIman := interruptedBySeek_manifest
          (s.manifest.segment_time - s.buffer_fcc) s
        rw [hI] at hIman
        cases bI with
        | true =>
          obtain ⟨-, hs⟩ : (false = b) ∧ sI = s' := by simpa using hsome
          subst hs
          exact hIm
        | false =>
          have := depleteLoop_tpt_mono (sI.buffer_contents.length + 1)
            (time - (s.manifest.segment_time - s.buffer_fcc))
            { sI with buffer_contents := sI.buffer_contents.tail, buffer_fcc := 0 }
            b s' (by simpa using hsome) (by push_neg at hfrac; linarith)
            (by show sI.manifest.segment_time ≥ 0; rw [hIman]; exact hseg)
          calc s.total_play_time ≤ sI.total_play_time := hIm
          _ ≤ s'.total_play_time := this
    · rw [if_neg hfcc] at hsome
      exact depleteLoop_tpt_mono (s.buffer_contents.length + 1) time s b s' hsome
        htime hseg

/-- `NetworkModel.download` never decreases `network_total_time`. -/
theorem download_ntt_mono (fuel : ℕ) (cfg : NetworkConfig)
    (check_abandon : Option (DownloadProgress → ℚ → Option ℕ)) (size : ℚ)
    (idx : ℤ) (q : ℕ) (bl : ℚ) (net : NetState) (dp : DownloadProgress)
    (net' : NetState) (log : List (DownloadProgress × ℚ))
    (hsome : download fuel cfg check_abandon size idx q bl net = some (dp, net', log))
    (hinv : NetInv net) :
    net.network_total_time ≤ net'.network_total_time := by
  rw [download] at hsome
  by_cases hsz : size ≤ 0
  · rw [if_pos hsz] at hsome
    obtain ⟨-, hnet, -⟩ :
        (⟨idx, q, 0, 0, 0, some 0, none⟩ : DownloadProgress) = dp ∧ net = net' ∧
        ([] : List (DownloadProgress × ℚ)) = log := by simpa using hsome
    rw [hnet]
  · rw [if_neg hsz] at hsome
    simp only [] at hsome
    have hsimple : ∀ hsome' : (match doLatencyDelay fuel 1 net with
        | none => none
        | some (latency, net₁) =>
          match doDownload fuel size net₁ with
          | none => none
          | some (t, net₂) =>
            some ((⟨idx, q, size, size, latency + t, some latency, none⟩ :
              DownloadProgress), net₂, ([] : List (DownloadProgress × ℚ)))) =
          some (dp, net', log),
        net.network_total_time ≤ net'.network_total_time := by
      intro hsome'
      cases h1 : doLatencyDelay fuel 1 net with
      | none => rw [h1] at hsome'; simp at hsome'
      | some v1 =>
        obtain ⟨lat, net₁⟩ := v1
        rw [h1] at hsome'
        simp only [] at hsome'
        cases h2 : doDownload fuel size net₁ with
        | none => rw [h2] at hsome'; simp at hsome'
        | some v2 =>
          obtain ⟨t, net₂⟩ := v2
          rw [h2] at hsome'
          obtain ⟨-, hnet, -⟩ :
              (⟨idx, q, size, size, lat + t, some lat, none⟩ : DownloadProgress) = dp ∧
              net₂ = net' ∧ ([] : List (DownloadProgress × ℚ)) = log := by
            simpa using hsome'
          obtain ⟨hlat, hntt₁, hinv₁, -⟩ := doLatencyDelay_spec fuel 1 net lat net₁ h1 hinv
          obtain ⟨ht, hntt₂, -, -, -⟩ := doDownload_spec fuel size net₁ t net₂ h2 hinv₁
          rw [← hnet]
          linarith [hntt₁, hntt₂]
    cases check_abandon with
    | none =>
      simp only [] at hsome
      exact hsimple hsome
    | some f =>
      simp only [] at hsome
      by_cases hc : cfg.min_progress_time ≤ 0 ∧ cfg.min_progress_size ≤ 0
      · rw [if_pos hc] at hsome
        exact hsimple hsome
      · rw [if_neg hc] at hsome
        by_cases hmps : 0 < cfg.min_progress_size
        · rw [if_pos hmps] at hsome
          cases h1 : doLatencyDelay fuel 1 net with
          | none => rw [h1] at hsome; simp at hsome
          | some v1 =>
            obtain ⟨lat, net₁⟩ := v1
            rw [h1] at hsome
            simp only [] at hsome
            obtain ⟨hlat, hntt₁, hinv₁, -⟩ := doLatencyDelay_spec fuel 1 net lat net₁
              h1 hinv
            obtain ⟨-, -, -, -, htime, hntt, -, -⟩ := downloadLoop_shape f cfg size idx
              q bl fuel lat 0 0 (cfg.min_progress_time - lat) cfg.min_progress_size
              (some lat) net₁ [] dp net' log hsome hinv₁
            linarith [hntt₁, hntt, htime]
        · rw [if_neg hmps] at hsome
          obtain ⟨-, -, -, -, htime, hntt, -, -⟩ := downloadLoop_shape f cfg size idx
            q bl fuel 0 0 1 cfg.min_progress_time cfg.min_progress_size none net []
            dp net' log hsome hinv
          linarith [hntt, htime]

/-- Claim C9: `total_play_time` and `network_total_time` are non-decreasing
throughout a run: seek handling and buffer depletion never move the play
clock backwards (a processed seek sets it forward to the seek instant), and
the network delay, latency-delay, download, minimal-latency-delay,
minimal-download and download operations never decrease the network clock. -/
theorem clocks_monotone :
    (∀ (delta : ℚ) (s : Sim), 0 ≤ delta →
      s.total_play_time ≤ (interruptedBySeek delta s).2.total_play_time) ∧
    (∀ (delta : ℚ) (s : Sim) (e : SeekEvent) (rest : List SeekEvent),
      s.seek_events = e :: rest →
      s.total_play_time < e.seek_when * 1000 →
      e.seek_when * 1000 ≤ s.total_play_time + delta →
      (interruptedBySeek delta s).2.total_play_time = e.seek_when * 1000 ∧
      s.total_play_time < (interruptedBySeek delta s).2.total_play_time) ∧
    (∀ (time : ℚ) (s : Sim) (b : Bool) (s' : Sim),
      depleteBuffer time s = some (b, s') → 0 ≤ time → 0 ≤ s.buffer_fcc →
      s.buffer_fcc ≤ s.manifest.segment_time →
      s.total_play_time ≤ s'.total_play_time) ∧
    (∀ (fuel : ℕ) (time : ℚ) (s s' : NetState),
      netDelay fuel time s = some s' → NetInv s → 0 ≤ time →
      s.network_total_time ≤ s'.network_total_time) ∧
    (∀ (fuel : ℕ) (du r : ℚ) (s s' : NetState),
      doLatencyDelay fuel du s = some (r, s') → NetInv s →
      s.network_total_time ≤ s'.network_total_time) ∧
    (∀ (fuel : ℕ) (size r : ℚ) (s s' : NetState),
      doDownload fuel size s = some (r, s') → NetInv s →
      s.network_total_time ≤ s'.network_total_time) ∧
    (∀ (fuel : ℕ) (du mt u t : ℚ) (s s' : NetState),
      doMinimalLatencyDelay fuel du mt s = some ((u, t), s') → NetInv s →
      s.network_total_time ≤ s'.network_total_time) ∧
    (∀ (fuel : ℕ) (size msp mtp bits t : ℚ) (s s' : NetState),
      doMinimalDownload fuel size msp mtp s = some ((bits, t), s') → NetInv s →
      s.network_total_time ≤ s'.network_total_time) ∧
    (∀ (fuel : ℕ) (cfg : NetworkConfig)
      (check_abandon : Option (DownloadProgress → ℚ → Option ℕ)) (size : ℚ)
      (idx : ℤ) (q : ℕ) (bl : ℚ) (net : NetState) (dp : DownloadProgress)
      (net' : NetState) (log : List (DownloadProgress × ℚ)),
      download fuel cfg check_abandon size idx q bl net = some (dp, net', log) →
      NetInv net → net.network_total_time ≤ net'.network_total_time) := by
  refine ⟨interruptedBySeek_tpt_mono, ?_, ?_, ?_, ?_, ?_, ?_, ?_, ?_⟩
  · intro delta s e rest hse hg1 hg2
    rw [interruptedBySeek_hit delta s e rest hse ⟨hg1, hg2⟩]
    exact ⟨rfl, hg1⟩
  · intro time s b s' hsome htime hfcc0 hfccs
    exact depleteBuffer_tpt_mono time s b s' hsome htime hfcc0 hfccs
  · intro fuel time s s' hsome hinv htime
    obtain ⟨hntt, -, -⟩ := netDelay_spec fuel time s s' hsome hinv htime
    linarith [hntt]
  · intro fuel du r s s' hsome hinv
    obtain ⟨hr, hntt, -, -⟩ := doLatencyDelay_spec fuel du s r s' hsome hinv
    linarith
  · intro fuel size r s s' hsome hinv
    obtain ⟨hr, hntt, -, -, -⟩ := doDownload_spec fuel size s r s' hsome hinv
    linarith
  · intro fuel du mt u t s s' hsome hinv
    obtain ⟨ht, hntt, -, -⟩ := doMinimalLatencyDelay_spec fuel du mt s u t s' hsome hinv
    linarith
  · intro fuel size msp mtp bits t s s' hsome hinv
    obtain ⟨-, ht, hntt, -, -, -, -⟩ := doMinimalDownload_spec fuel size msp mtp s
      bits t s' hsome hinv
    linarith
  · exact download_ntt_mono

/-- Witness for claim C9 at concrete inputs: a seek advance, a concrete
`deplete_buffer` call and a concrete network delay, each leaving its clock
no smaller. -/
theorem clocks_monotone_witness :
    (baseSim.total_play_time ≤ (interruptedBySeek 5 baseSim).2.total_play_time) ∧
    (∃ s', depleteBuffer 300 baseSim = some (true, s') ∧
      baseSim.total_play_time ≤ s'.total_play_time) ∧
    (∃ s', netDelay 3 50 ⟨[⟨1000, 2, 100⟩], 0, 1000, 0⟩ = some s' ∧
      (0 : ℚ) ≤ s'.network_total_time) := by
  refine ⟨clocks_monotone.1 5 baseSim (by norm_num), ?_, ?_⟩
  · have hrun : depleteBuffer 300 baseSim = some (true,
        { baseSim with
            rebuffer_time := 300
            total_play_time := 300
            rebuffer_event_count := 1
            segment_rebuffer_time := 300 }) := by
      norm_num [depleteBuffer, interruptedBySeek, baseSim, testManifest]
    refine ⟨_, hrun, clocks_monotone.2.2.1 300 baseSim true _ hrun (by norm_num)
      (by norm_num [baseSim]) (by norm_num [baseSim, testManifest])⟩
  · have hrun : netDelay 3 50 (⟨[⟨1000, 2, 100⟩], 0, 1000, 0⟩ : NetState) =
        some ⟨[⟨1000, 2, 100⟩], 0, 950, 50⟩ := by
      norm_num [netDelay]
    refine ⟨_, hrun, ?_⟩
    have := clocks_monotone.2.2.2.1 3 50 ⟨[⟨1000, 2, 100⟩], 0, 1000, 0⟩
      ⟨[⟨1000, 2, 100⟩], 0, 950, 50⟩ hrun
      ⟨fun p hp => by simp [List.mem_singleton] at hp; rw [hp]; norm_num, by norm_num⟩
      (by norm_num)
    show (0 : ℚ) ≤ (50 : ℚ)
    norm_num

end Sabre
